import Mathlib

/-!
Verification development for the BIBparsley bibliography utility.

The Python source (src/BIBparsley.py) is embedded shallowly: Python strings
become `List Char`, Python `OrderedDict`s become association lists that
preserve insertion order, index-based `while` loops become fuel-based
structural recursions (the fuel given at each entry point exceeds the number
of loop iterations the code can perform, which is bounded by the text
length), and fatal `exit(1)` paths become `Except` errors.  The external
Crossref collaborator is modelled by passing the lookup results (the items
of the service reply) as explicit arguments.
-/

/-- Helper turning a Lean string literal into the `List Char` the model works on. -/
def chars (s : String) : List Char := s.data

/-- Python whitespace as tested by `str.strip` / `str.split`. -/
def isPySpace (c : Char) : Bool :=
  c = ' ' || c = '\t' || c = '\n' || c = '\r' || c = '\x0b' || c = '\x0c'

/-- Python `str.lstrip()`. -/
def pyLStrip (s : List Char) : List Char := s.dropWhile isPySpace

/-- Python `str.rstrip()`. -/
def pyRStrip (s : List Char) : List Char := (s.reverse.dropWhile isPySpace).reverse

/-- Python `str.strip()`. -/
def pyStrip (s : List Char) : List Char := pyRStrip (pyLStrip s)

/-- Python `str.rstrip(",")`: removes every trailing comma. -/
def pyRStripComma (s : List Char) : List Char := (s.reverse.dropWhile (· = ',')).reverse

/-- Python `str.lower()` on the ASCII fragment. -/
def pyLower (s : List Char) : List Char := s.map Char.toLower

/-- Python `"sep".join(parts)`. -/
def joinSep (sep : List Char) : List (List Char) → List Char
  | [] => []
  | [x] => x
  | x :: y :: t => x ++ sep ++ joinSep sep (y :: t)

/-- Python `"sep".join(filter(None, parts))`: empty parts are dropped before joining. -/
def joinFilterSep (sep : List Char) (parts : List (List Char)) : List Char :=
  joinSep sep (parts.filter (fun p => !p.isEmpty))

/-- Python `s.split(sep)` for a one-character separator (keeps empty groups). -/
def pySplitOn (sep : Char) (s : List Char) : List (List Char) :=
  s.foldr
    (fun c groups =>
      match groups with
      | [] => [[c]]
      | g :: gs => if c = sep then [] :: g :: gs else (c :: g) :: gs)
    [[]]

/-- Helper loop of `pySplitWS`, accumulating the current token reversed. -/
def splitWSAux : List Char → List Char → List (List Char)
  | [], cur => if cur.isEmpty then [] else [cur.reverse]
  | c :: t, cur =>
      if isPySpace c then
        if cur.isEmpty then splitWSAux t [] else cur.reverse :: splitWSAux t []
      else splitWSAux t (c :: cur)

/-- Python `s.split()`: split on whitespace runs, dropping empty tokens. -/
def pySplitWS (s : List Char) : List (List Char) := splitWSAux s []

/-- Embedding of `is_all_uppercase` (BIBparsley.py lines 34-39):
`s.isalpha() and s.isupper()` on the ASCII fragment. -/
def pyIsAlpha (s : List Char) : Bool := !s.isEmpty && s.all (·.isAlpha)

/-- Python `str.isupper()` on the ASCII fragment: at least one cased character
and every cased character uppercase. -/
def pyIsUpper (s : List Char) : Bool :=
  s.any (·.isAlpha) && s.all (fun c => !c.isAlpha || c.isUpper)

def is_all_uppercase (s : List Char) : Bool := pyIsAlpha s && pyIsUpper s

/-- Python `name.replace(".", ". ")`. -/
def insertDotSpace (s : List Char) : List Char :=
  s.foldr (fun c acc => if c = '.' then '.' :: ' ' :: acc else c :: acc) []

/-- Loop body of `abbreviate_name` (BIBparsley.py lines 53-60): processes one
token, extending the accumulated `joinname`.  `part[0]` cannot be reached on
an empty token (`pyIsAlpha [] = false`), so the `[]` branch of the match is
arbitrary. -/
def abbreviate_step (joinname part : List Char) : List Char :=
  if is_all_uppercase part then
    joinFilterSep [' '] (joinname :: part.map (fun letter => [letter, '.']))
  else
    let part2 :=
      if pyIsAlpha part then
        match part with
        | [] => []
        | c :: _ => [c.toUpper, '.']
      else part
    joinFilterSep [' '] [joinname, part2]

/-- Embedding of `abbreviate_name` (BIBparsley.py lines 42-62). -/
def abbreviate_name (name : List Char) : List Char :=
  (pySplitWS (insertDotSpace name)).foldl abbreviate_step []

/-- One attempt of the regex `\s+and\s+` at the current position: if the text
starts with one or more whitespace characters, then the literal `and`, then
one or more whitespace characters, return the remainder after the match. -/
def matchAndSep (s : List Char) : Option (List Char) :=
  let w1 := s.takeWhile isPySpace
  let r1 := s.dropWhile isPySpace
  if !w1.isEmpty && r1.take 3 = ['a', 'n', 'd'] then
    let r2 := r1.drop 3
    let w2 := r2.takeWhile isPySpace
    let r3 := r2.dropWhile isPySpace
    if !w2.isEmpty then some r3 else none
  else none

/-- Scanning loop of `re.split(r"\s+and\s+", s)`: leftmost matches, repeated. -/
def reSplitAndLoop : Nat → List Char → List Char → List (List Char)
  | 0, cur, s => [(cur.reverse ++ s)]
  | _fuel + 1, cur, [] => [cur.reverse]
  | fuel + 1, cur, c :: t =>
      match matchAndSep (c :: t) with
      | some rest => cur.reverse :: reSplitAndLoop fuel [] rest
      | none => reSplitAndLoop fuel (c :: cur) t

/-- Python `re.split(r"\s+and\s+", author_str)`. -/
def reSplitAnd (s : List Char) : List (List Char) := reSplitAndLoop (s.length + 1) [] s

/-- Embedding of `split_authors` (BIBparsley.py lines 65-91).  The
`try/except` cannot fire in the model: the only operations inside are total. -/
def split_authors (author_str : List Char) : List (List Char) :=
  (reSplitAnd author_str).map fun author0 =>
    let author := pyStrip author0
    if ',' ∈ author then
      let last := pyStrip (author.takeWhile (fun c => !(c == ',')))
      let first := pyStrip ((author.dropWhile (fun c => !(c == ','))).drop 1)
      abbreviate_name first ++ ' ' :: last
    else if ' ' ∈ author then
      let first := ((author.reverse.dropWhile (fun c => !(c == ' '))).drop 1).reverse
      let last := (author.reverse.takeWhile (fun c => !(c == ' '))).reverse
      abbreviate_name first ++ ' ' :: last
    else author

/-- Helper of `pyReplace`: Python `str.replace` scanning loop. -/
def pyReplaceLoop (old new : List Char) : Nat → List Char → List Char
  | 0, s => s
  | _fuel + 1, [] => []
  | fuel + 1, c :: t =>
      if !old.isEmpty && old.isPrefixOf (c :: t) then
        new ++ pyReplaceLoop old new fuel ((c :: t).drop old.length)
      else c :: pyReplaceLoop old new fuel t

/-- Python `s.replace(old, new)` (all non-overlapping occurrences, left to right). -/
def pyReplace (s old new : List Char) : List Char := pyReplaceLoop old new s.length s

/-- Pages rule of `parse_fields` (BIBparsley.py lines 172-175):
`n = value.count("-"); if n > 1: value = value.replace("-" * n, "-")`. -/
def pages_normalize (value : List Char) : List Char :=
  let n := value.count '-'
  if n > 1 then pyReplace value (List.replicate n '-') ['-'] else value

/-- Per-key normalization applied by `parse_fields` (BIBparsley.py lines 169-175). -/
def normalize_field_value (key value : List Char) : List Char :=
  if key = chars "author" ∨ key = chars "editor" then
    joinSep (chars " and ") (split_authors value)
  else if key = chars "pages" then pages_normalize value
  else value

/-- Loop of `extract_value` (BIBparsley.py lines 184-218), one fuel unit per
iteration of the Python `while index < length` loop. -/
def extract_value_loop (text : List Char) :
    Nat → Nat → Int → Bool → List Char → List Char × Nat
  | 0, index, _, _, value => (value, index)
  | fuel + 1, index, brace_level, in_quotes, value =>
      if index < text.length then
        let char := text.getD index ' '
        if char = '{' then
          extract_value_loop text fuel (index + 1) (brace_level + 1) in_quotes (value ++ ['{'])
        else if char = '}' then
          let value := value ++ ['}']
          let bl := brace_level - 1
          if bl = 0 then
            (if value.head? = some '{' ∧ value.getLast? = some '}' then
               (value.drop 1).dropLast
             else value, index)
          else extract_value_loop text fuel (index + 1) bl in_quotes value
        else if char = '"' then
          extract_value_loop text fuel (index + 1) brace_level (!in_quotes) (value ++ ['"'])
        else if char = ',' then
          if brace_level = 0 ∧ in_quotes = false then (value, index)
          else extract_value_loop text fuel (index + 1) brace_level in_quotes (value ++ [','])
        else extract_value_loop text fuel (index + 1) brace_level in_quotes (value ++ [char])
      else (value, index)

/-- Embedding of `extract_value` (BIBparsley.py lines 184-218). -/
def extract_value (text : List Char) (start_index : Nat) : List Char × Nat :=
  extract_value_loop text (text.length + 1) start_index 0 false []

/-- The whitespace set `" \t\n"` skipped between `=` and the value in `parse_fields`. -/
def isFieldWS (c : Char) : Bool := c = ' ' || c = '\t' || c = '\n'

/-- Whitespace-skipping inner loop of `parse_fields` (lines 162-163). -/
def skip_ws_loop (text : List Char) : Nat → Nat → Nat
  | 0, index => index
  | fuel + 1, index =>
      if index < text.length && isFieldWS (text.getD index ' ') then
        skip_ws_loop text fuel (index + 1)
      else index

/-- Python `fields[key] = value` on an `OrderedDict`: overwrite in place if the
key exists, else append at the end. -/
def odInsert (m : List (List Char × List Char)) (k v : List Char) :
    List (List Char × List Char) :=
  match m with
  | [] => [(k, v)]
  | (k0, v0) :: t => if k0 = k then (k0, v) :: t else (k0, v0) :: odInsert t k v

/-- Loop of `parse_fields` (BIBparsley.py lines 154-179), one fuel unit per
iteration of the Python `while index < length` loop. -/
def parse_fields_loop (field_text : List Char) :
    Nat → Nat → List (List Char × List Char) → List (List Char × List Char)
  | 0, _, fields => fields
  | fuel + 1, index, fields =>
      if index < field_text.length then
        if field_text.getD index ' ' = '=' then
          let key_start := index - ((field_text.take index).reverse.findIdx (· == '\n'))
          let key := pyLower (pyStrip ((field_text.take index).drop key_start))
          let index2 := skip_ws_loop field_text (field_text.length + 1) (index + 1)
          let vi := extract_value field_text index2
          let value := pyRStripComma vi.1
          let value := normalize_field_value key value
          parse_fields_loop field_text fuel (vi.2 + 1) (odInsert fields (pyLower key) value)
        else parse_fields_loop field_text fuel (index + 1) fields
      else fields

/-- Embedding of `parse_fields` (BIBparsley.py lines 148-181). -/
def parse_fields (field_text : List Char) : List (List Char × List Char) :=
  parse_fields_loop field_text (field_text.length + 1) 0 []

/-- One parsed bibliography record: the Python dict `{"type": ..., "fields": ...}`. -/
structure BibEntry where
  type : List Char
  fields : List (List Char × List Char)
deriving DecidableEq, Repr

/-- The keys of the Python dict `{"type": ..., "fields": ...}` that represents
an entry: the `"doi" in entry` test of `update_DOI` ranges over these. -/
def entry_record_keys : List (List Char) := [chars "type", chars "fields"]

/-- Embedding of `process_bib_entry` (BIBparsley.py lines 122-145).  The fatal
`exit(1)` on a duplicate id becomes `Except.error` carrying the id printed by
the diagnostic `f"Duplicate entry: {entry_id}"`. -/
def process_bib_entry (entry_text : List Char)
    (entries : List (List Char × BibEntry)) :
    Except (List Char) (List (List Char × BibEntry)) :=
  let lines := pySplitOn '\n' entry_text
  let header := pyStrip (lines.headD [])
  if '{' ∈ header then
    let entry_type := pyLower (pyStrip ((header.takeWhile (fun c => !(c == '{'))).drop 1))
    let entry_id :=
      pyRStripComma (pyStrip ((header.dropWhile (fun c => !(c == '{'))).drop 1))
    let field_text := pyStrip (joinSep ['\n'] (lines.drop 1))
    let fields := parse_fields field_text
    if entry_id ∈ entries.map Prod.fst then .error entry_id
    else .ok (entries ++ [(entry_id, ⟨entry_type, fields⟩)])
  else .ok entries

/-- Inner brace-matching loop of `read_bibtex_entries` (lines 107-116): scans
from `index` keeping `brace_count`; on the `}` closing the record it processes
the slice and stops (returning the closing index), otherwise it runs off the
end of the text. -/
def read_entry_loop (content : List Char) :
    Nat → Nat → Nat → Int → List (List Char × BibEntry) →
    Except (List Char) (List (List Char × BibEntry) × Nat)
  | 0, _, index, _, entries => .ok (entries, index)
  | fuel + 1, entry_start, index, brace_count, entries =>
      if index < content.length then
        let c := content.getD index ' '
        if c = '{' then
          read_entry_loop content fuel entry_start (index + 1) (brace_count + 1) entries
        else if c = '}' then
          let bc := brace_count - 1
          if bc = 0 then
            match process_bib_entry
                ((content.drop entry_start).take (index + 1 - entry_start)) entries with
            | .error e => .error e
            | .ok entries2 => .ok (entries2, index)
          else read_entry_loop content fuel entry_start (index + 1) bc entries
        else read_entry_loop content fuel entry_start (index + 1) brace_count entries
      else .ok (entries, index)

/-- Outer loop of `read_bibtex_entries` (lines 103-117). -/
def read_entries_loop (content : List Char) :
    Nat → Nat → List (List Char × BibEntry) →
    Except (List Char) (List (List Char × BibEntry))
  | 0, _, entries => .ok entries
  | fuel + 1, index, entries =>
      if index < content.length then
        if content.getD index ' ' = '@' then
          match read_entry_loop content (content.length + 1) index index 0 entries with
          | .error e => .error e
          | .ok (entries2, index2) => read_entries_loop content fuel (index2 + 1) entries2
        else read_entries_loop content fuel (index + 1) entries
      else .ok entries

/-- Embedding of `read_bibtex_entries` (BIBparsley.py lines 94-119), with the
file contents passed directly instead of being read from disk. -/
def read_bibtex_entries (content : List Char) :
    Except (List Char) (List (List Char × BibEntry)) :=
  read_entries_loop content (content.length + 1) 0 []

/-- Record-slicing projection of the inner loop: the same brace matching as
`read_entry_loop`, without processing — returns the index reached and whether
the loop stopped on a record-closing `}`. -/
def scan_entry_loop (content : List Char) : Nat → Nat → Int → Nat × Bool
  | 0, index, _ => (index, false)
  | fuel + 1, index, brace_count =>
      if index < content.length then
        let c := content.getD index ' '
        if c = '{' then scan_entry_loop content fuel (index + 1) (brace_count + 1)
        else if c = '}' then
          let bc := brace_count - 1
          if bc = 0 then (index, true)
          else scan_entry_loop content fuel (index + 1) bc
        else scan_entry_loop content fuel (index + 1) brace_count
      else (index, false)

/-- Record-slicing projection of the outer loop: the list of record texts that
`read_bibtex_entries` feeds to `process_bib_entry`, in order. -/
def scan_records_loop (content : List Char) : Nat → Nat → List (List Char)
  | 0, _ => []
  | fuel + 1, index =>
      if index < content.length then
        if content.getD index ' ' = '@' then
          let r := scan_entry_loop content (content.length + 1) index 0
          if r.2 then
            ((content.drop index).take (r.1 + 1 - index)) ::
              scan_records_loop content fuel (r.1 + 1)
          else scan_records_loop content fuel (r.1 + 1)
        else scan_records_loop content fuel (index + 1)
      else []

/-- The record texts scanned out of a document by `read_bibtex_entries`. -/
def recordsOf (content : List Char) : List (List Char) :=
  scan_records_loop content (content.length + 1) 0

/-- The citation id `process_bib_entry` would assign to a record text, when its
header line contains `{` (otherwise the record is silently skipped). -/
def headerId? (entry_text : List Char) : Option (List Char) :=
  let header := pyStrip ((pySplitOn '\n' entry_text).headD [])
  if '{' ∈ header then
    some (pyRStripComma (pyStrip ((header.dropWhile (fun c => !(c == '{'))).drop 1)))
  else none

/-- Folding `process_bib_entry` over a list of record texts, stopping at the
first fatal error — the processing order of `read_bibtex_entries`. -/
def processList (ts : List (List Char)) (es : List (List Char × BibEntry)) :
    Except (List Char) (List (List Char × BibEntry)) :=
  match ts with
  | [] => .ok es
  | t :: tl =>
      match process_bib_entry t es with
      | .error e => .error e
      | .ok es2 => processList tl es2

/-- Embedding of `entry2str` (BIBparsley.py lines 221-226). -/
def entry2str (key : List Char) (entry : BibEntry) : List Char :=
  let s0 := '@' :: entry.type ++ '{' :: key ++ [',']
  let s1 := entry.fields.foldl
    (fun s kv => s ++ '\n' :: '\t' :: kv.1 ++ chars " = " ++ '{' :: kv.2 ++ chars "\x7d,") s0
  s1 ++ '\n' :: chars "\x7d\n\n"

/-- Embedding of `get_doi` (BIBparsley.py lines 6-14).  The Crossref reply is
modelled by the list of returned items, each carrying its optional `"DOI"`
value; `item.get("DOI", "DOI not found")` is the `getD`.  Note the function
always returns a string — `"DOI not found"` when the lookup fails. -/
def get_doi (items : List (Option (List Char))) : List Char :=
  match items with
  | [] => chars "DOI not found"
  | item :: _ => item.getD (chars "DOI not found")

/-- One item of a Crossref reply as consumed by `get_exact_doi`: the
normalized first title (when the item has a `"title"` key) and the optional
`"DOI"` value. -/
structure CrossrefItem where
  title : Option (List Char)
  doi : Option (List Char)
deriving DecidableEq, Repr

/-- Embedding of `get_exact_doi` (BIBparsley.py lines 17-31): first item whose
title matches case-insensitively; returns its `"DOI"` value (possibly absent),
`none` when no item matches. -/
def get_exact_doi (items : List CrossrefItem) (article_title : List Char) :
    Option (List Char) :=
  match items.find? (fun item =>
      match item.title with
      | some t => pyLower (pyStrip t) == pyLower (pyStrip article_title)
      | none => false) with
  | some item => item.doi
  | none => none

/-- Embedding of `update_DOI` (BIBparsley.py lines 229-244), parameterized by
the lookup replies.  The Python guard is `if not "doi" in entry:` where
`entry` is the record dict whose keys are `"type"` and `"fields"` — the test
never looks inside `fields`.  `bibfields["title"]` raising `KeyError` is
modelled as `none`.  In the article branch the Python check
`if doi is not None` compares a value that is always a string, so the
assignment always happens. -/
def update_DOI (fuzzy_items : List (Option (List Char)))
    (exact_items : List CrossrefItem) (entry : BibEntry) : Option BibEntry :=
  let bibtype := entry.type
  let bibfields := entry.fields
  if ¬ (chars "doi" ∈ entry_record_keys) then
    match List.lookup (chars "title") bibfields with
    | none => none
    | some article_name =>
        if bibtype = chars "article" then
          let doi := get_doi fuzzy_items
          some { entry with fields := odInsert bibfields (chars "doi") doi }
        else
          match get_exact_doi exact_items article_name with
          | some doi => some { entry with fields := odInsert bibfields (chars "doi") doi }
          | none => some entry
  else some entry

/-- Python `del bibfields[field]` guarded by `if field in bibfields`. -/
def odDelete (m : List (List Char × List Char)) (k : List Char) :
    List (List Char × List Char) :=
  m.filter (fun p => !(p.1 == k))

/-- Embedding of `remove_dummy_fields` (BIBparsley.py lines 247-261). -/
def remove_dummy_fields (entry : BibEntry) : BibEntry :=
  let f1 := [chars "timestamp", chars "abstract", chars "keywords", chars "owner"].foldl
    odDelete entry.fields
  let f2 :=
    if entry.type = chars "article" then [chars "issn", chars "url"].foldl odDelete f1
    else f1
  { entry with fields := f2 }

/-- Helper loop of `collapseHyphenRuns`. -/
def collapseRunsLoop : Nat → List Char → List Char
  | 0, s => s
  | _fuel + 1, [] => []
  | fuel + 1, c :: t =>
      if c = '-' then '-' :: collapseRunsLoop fuel (t.dropWhile (fun x => x == '-'))
      else c :: collapseRunsLoop fuel t

/-- Modelled from the claim wording for C4: collapse every run of one or more
consecutive hyphens to a single hyphen (runs of length 1 are unchanged by
this, so it is exactly "collapse any run of 2 or more"). -/
def collapseHyphenRuns (s : List Char) : List Char := collapseRunsLoop s.length s

/-- Modelled from the claim wording for C5: the per-token rule as the claim
states it — an all-uppercase alphabetic token becomes its letters each
suffixed with a period, any other purely alphabetic token becomes its first
letter followed by a period (no case change), any other token is unchanged. -/
def claimed_abbrev_token (t : List Char) : List Char :=
  if is_all_uppercase t then joinSep [' '] (t.map (fun letter => [letter, '.']))
  else if pyIsAlpha t then
    match t with
    | [] => []
    | c :: _ => [c, '.']
  else t

/-- Modelled from the claim wording for C5: split on whitespace after
inserting a space after every period, map each token, join the surviving
non-empty tokens with single spaces. -/
def claimed_abbreviate_name (name : List Char) : List Char :=
  joinFilterSep [' '] ((pySplitWS (insertDotSpace name)).map claimed_abbrev_token)

/-- The amended per-token rule actually implemented by `abbreviate_name`: as
the claim states it, except that the first letter of a purely alphabetic
token is uppercased. -/
def code_abbrev_token (t : List Char) : List Char :=
  if is_all_uppercase t then joinSep [' '] (t.map (fun letter => [letter, '.']))
  else if pyIsAlpha t then
    match t with
    | [] => []
    | c :: _ => [c.toUpper, '.']
  else t

/-- The amended claim for C5 as a whole: split on whitespace after inserting
a space after every period, map each token through `code_abbrev_token`, join
the surviving non-empty tokens with single spaces. -/
def amended_abbreviate_name (name : List Char) : List Char :=
  joinFilterSep [' '] ((pySplitWS (insertDotSpace name)).map code_abbrev_token)

/-- The field keys `remove_dummy_fields` may delete for an entry of type `ty`. -/
def dummy_key (ty k : List Char) : Bool :=
  [chars "timestamp", chars "abstract", chars "keywords", chars "owner"].contains k
  || (ty == chars "article" && [chars "issn", chars "url"].contains k)

/-! ## Generic helper lemmas -/

/-- Decidable equality for `Except` results, so concrete parser runs can be
checked by `decide`. -/
instance exceptDecidableEq {e a : Type} [DecidableEq e] [DecidableEq a] :
    DecidableEq (Except e a)
  | .error x, .error y =>
      if h : x = y then .isTrue (by rw [h]) else
        .isFalse (fun hc => h (Except.error.inj hc))
  | .error _, .ok _ => .isFalse (fun hc => Except.noConfusion hc)
  | .ok _, .error _ => .isFalse (fun hc => Except.noConfusion hc)
  | .ok x, .ok y =>
      if h : x = y then .isTrue (by rw [h]) else
        .isFalse (fun hc => h (Except.ok.inj hc))


/-! ## C1: round-trip through the serializer -/

/-- Head-line shape of the serialized field block: the text from the start of
a field line up to (not including) its `=`, or the final closing brace line
when no fields remain. -/
def LofB : List (List Char × List Char) → List Char
  | [] => ['}']
  | kv :: _ => '\t' :: kv.1 ++ [' ']

/-- Tail shape of the serialized field block from the first `=` on: the rest
of the current field line, the newline, and the following lines. -/
def SegB : List (List Char × List Char) → List Char
  | [] => []
  | kv :: tl => '=' :: ' ' :: '{' :: kv.2 ++ '}' :: ',' :: '\n' :: (LofB tl ++ SegB tl)

/-- The serialized field block of an entry, up to and including the closing
brace, without the trailing blank lines. -/
def TailB (fs : List (List Char × List Char)) : List Char := LofB fs ++ SegB fs

/-- Net brace depth of a string: opening minus closing braces. -/
def braceDelta (s : List Char) : Int := (s.count '{' : Int) - (s.count '}' : Int)

/-- Round-trip conditions on one field: the key has no newline or equals
sign and is strip- and lowercase-invariant (as keys produced by
`parse_fields` are); the value has balanced braces that never go negative,
does not end with a comma, and is a fixed point of the per-key
normalization. -/
def goodField (kv : List Char × List Char) : Prop :=
  '\n' ∉ kv.1 ∧ '=' ∉ kv.1 ∧ pyStrip kv.1 = kv.1 ∧ pyLower kv.1 = kv.1
  ∧ (∀ i, i ≤ kv.2.length → 0 ≤ braceDelta (kv.2.take i)) ∧ braceDelta kv.2 = 0
  ∧ kv.2.getLast? ≠ some ','
  ∧ normalize_field_value kv.1 kv.2 = kv.2

instance goodFieldDecidable (kv : List Char × List Char) : Decidable (goodField kv) := by
  unfold goodField
  exact inferInstance


theorem getD_append_at (A : List Char) (c : Char) (B : List Char) :
    (A ++ c :: B).getD A.length ' ' = c := by
  induction A with
  | nil => rfl
  | cons a t ih => simpa using ih

theorem length_append_cons_pos (A : List Char) (c : Char) (B : List Char) :
    A.length < (A ++ c :: B).length := by
  simp [List.length_append]

/-! ## C6: value-extractor stopping and stripping behavior -/

/-- C6: the value extractor stops at a `}` that brings the brace-depth counter
back to 0, returning the accumulated value with its outer braces stripped
exactly when it starts with `{` and ends with `}`, together with the index of
that closing brace; it does not stop at a `,` at brace depth 0 while the
quote toggle is on; extracting `{Nested {inner} value}` yields
`Nested {inner} value`, and a quoted value does not end at an internal comma. -/
theorem C6_extract_value_stop_and_strip :
    (∀ (text : List Char) (index : Nat) (q : Bool) (acc : List Char) (fuel : Nat),
        index < text.length → text.getD index ' ' = '}' →
        extract_value_loop text (fuel + 1) index 1 q acc =
          (if (acc ++ ['}']).head? = some '{' ∧ (acc ++ ['}']).getLast? = some '}' then
             ((acc ++ ['}']).drop 1).dropLast
           else acc ++ ['}'], index))
    ∧ (∀ (text : List Char) (index : Nat) (acc : List Char) (fuel : Nat),
        index < text.length → text.getD index ' ' = ',' →
        extract_value_loop text (fuel + 1) index 0 true acc =
          extract_value_loop text fuel (index + 1) 0 true (acc ++ [',']))
    ∧ extract_value (chars "\x7bNested \x7binner\x7d value\x7d") 0 =
        (chars "Nested \x7binner\x7d value", 21)
    ∧ extract_value (chars "\"value, with comma\"") 0 =
        (chars "\"value, with comma\"", 19) := by
  refine ⟨?_, ?_, by decide, by decide⟩
  · intro text index q acc fuel h1 h2
    rw [List.getD_eq_getElem?_getD, List.getElem?_eq_getElem h1] at h2
    simp [extract_value_loop, h1, h2]
  · intro text index acc fuel h1 h2
    rw [List.getD_eq_getElem?_getD, List.getElem?_eq_getElem h1] at h2
    simp [extract_value_loop, h1, h2]

/-- Witness for C6: both universally quantified parts applied at concrete
inputs. -/
theorem C6_extract_value_stop_and_strip_witness :
    extract_value_loop (chars "a\x7d") 5 1 1 false ['{', 'a'] = (chars "a", 1)
    ∧ extract_value_loop (chars ",x") 2 0 0 true [] =
        extract_value_loop (chars ",x") 1 1 0 true [','] := by
  constructor
  · have h := C6_extract_value_stop_and_strip.1 (chars "a\x7d") 1 false ['{', 'a'] 4
      (by decide) (by decide)
    exact h.trans (by decide)
  · exact C6_extract_value_stop_and_strip.2.1 (chars ",x") 0 [] 1 (by decide) (by decide)

/-! ## C7: the DOI-presence check targets the entry record, not its fields -/

/-- C7: `update_DOI` tests for `"doi"` among the keys of the entry record
itself (just `"type"` and `"fields"`), so the test never finds it, the guard
is always passed, and a lookup is attempted for every entry — for every
article entry with a title the fuzzy lookup result is stored
unconditionally, and concretely an entry whose fields already contain
`"doi"` has it overwritten by the lookup result. -/
theorem C7_doi_check_wrong_object :
    (chars "doi" ∉ entry_record_keys)
    ∧ (∀ (fuzzy_items : List (Option (List Char))) (exact_items : List CrossrefItem)
        (e : BibEntry) (t : List Char),
        List.lookup (chars "title") e.fields = some t →
        e.type = chars "article" →
        update_DOI fuzzy_items exact_items e =
          some ⟨e.type, odInsert e.fields (chars "doi") (get_doi fuzzy_items)⟩)
    ∧ update_DOI [some (chars "10.1/x")] []
        ⟨chars "article", [(chars "doi", chars "OLD"), (chars "title", chars "T")]⟩ =
      some ⟨chars "article", [(chars "doi", chars "10.1/x"), (chars "title", chars "T")]⟩ := by
  refine ⟨by decide, ?_, by decide⟩
  intro fuzzy_items exact_items e t hlook harticle
  have hmem : ¬ (chars "doi" ∈ entry_record_keys) := by decide
  simp [update_DOI, hmem, hlook, harticle]

/-- Witness for C7: the universally quantified part applied at a concrete
article entry. -/
theorem C7_doi_check_wrong_object_witness :
    update_DOI [] [] ⟨chars "article", [(chars "title", chars "X")]⟩ =
      some ⟨chars "article", odInsert [(chars "title", chars "X")] (chars "doi") (get_doi [])⟩ :=
  C7_doi_check_wrong_object.2.1 [] [] ⟨chars "article", [(chars "title", chars "X")]⟩
    (chars "X") (by decide) (by decide)

/-! ## C3: a failed DOI lookup is not absorbed for articles -/

/-- C3 (code bug): for an article entry without a DOI whose fuzzy lookup
returns no items, `update_DOI` does not leave the entry unchanged — it stores
the sentinel string `"DOI not found"` under `fields["doi"]`, because
`get_doi` returns that string instead of `None` on failure, so the
`if doi is not None` guard never skips the assignment.  For a non-article
entry the failed exact lookup does leave the entry unchanged, as the claim
says. -/
theorem C3_doi_failure_not_absorbed_for_articles :
    update_DOI [] [] ⟨chars "article", [(chars "title", chars "T")]⟩ =
      some ⟨chars "article",
        [(chars "title", chars "T"), (chars "doi", chars "DOI not found")]⟩
    ∧ update_DOI [] [] ⟨chars "book", [(chars "title", chars "T")]⟩ =
      some ⟨chars "book", [(chars "title", chars "T")]⟩ := by
  decide

/-! ## C4: pages normalization -/

theorem pyReplaceLoop_of_not_mem (n : Nat) (hn : 1 ≤ n) (new : List Char) :
    ∀ (s : List Char) (fuel : Nat), '-' ∉ s →
      pyReplaceLoop (List.replicate n '-') new fuel s = s := by
  intro s
  induction s with
  | nil => intro fuel _; cases fuel <;> rfl
  | cons c t ih =>
    intro fuel hmem
    cases fuel with
    | zero => rfl
    | succ f =>
      have hc : c ≠ '-' := fun h => hmem (h ▸ List.mem_cons_self c t)
      have hpre : (List.replicate n '-').isPrefixOf (c :: t) = false := by
        obtain ⟨m, rfl⟩ := Nat.exists_eq_add_of_le hn
        simp [List.replicate_add, List.isPrefixOf, Ne.symm hc]
      simp only [pyReplaceLoop, hpre, Bool.and_false, Bool.false_eq_true, if_false]
      rw [ih f (fun h => hmem (List.mem_cons_of_mem c h))]

theorem pyReplaceLoop_skip (pat new : List Char) (hpat : ∀ c ∈ pat, c = '-') :
    ∀ (a : List Char) (rest : List Char) (fuel : Nat), '-' ∉ a →
      pyReplaceLoop pat new (a.length + fuel) (a ++ rest) =
        a ++ pyReplaceLoop pat new fuel rest := by
  intro a
  induction a with
  | nil => intro rest fuel _; simp
  | cons c t ih =>
    intro rest fuel hmem
    have hc : c ≠ '-' := fun h => hmem (h ▸ List.mem_cons_self c t)
    have hcond : (!pat.isEmpty && pat.isPrefixOf (c :: (t ++ rest))) = false := by
      cases pat with
      | nil => simp
      | cons p ps =>
        have hp : p = '-' := hpat p (List.mem_cons_self p ps)
        simp [List.isPrefixOf, hp, Ne.symm hc]
    have harith : (c :: t).length + fuel = (t.length + fuel) + 1 := by
      simp [List.length_cons]; omega
    rw [harith]
    simp only [List.cons_append, pyReplaceLoop, List.append_eq, hcond, Bool.false_eq_true,
      if_false]
    rw [ih rest fuel (fun h => hmem (List.mem_cons_of_mem c h))]

theorem isPrefixOf_append_self (p r : List Char) : p.isPrefixOf (p ++ r) = true := by
  induction p with
  | nil => simp [List.isPrefixOf]
  | cons c t ih => simp [List.isPrefixOf, ih]

theorem pages_normalize_single_run (a b : List Char) (n : Nat) (h2 : 2 ≤ n)
    (ha : '-' ∉ a) (hb : '-' ∉ b) :
    pages_normalize (a ++ List.replicate n '-' ++ b) = a ++ '-' :: b := by
  have hcount : (a ++ List.replicate n '-' ++ b).count '-' = n := by
    simp [List.count_append, List.count_replicate_self,
      List.count_eq_zero.mpr ha, List.count_eq_zero.mpr hb]
  have hgt : (a ++ List.replicate n '-' ++ b).count '-' > 1 := by omega
  have hlen : (a ++ List.replicate n '-' ++ b).length = a.length + (n + b.length) := by
    simp [List.length_append, List.length_replicate]
  simp only [pages_normalize, hcount, if_pos (by omega : n > 1), pyReplace, hlen]
  rw [List.append_assoc]
  rw [pyReplaceLoop_skip (List.replicate n '-') ['-']
    (fun c hc => List.eq_of_mem_replicate hc) a (List.replicate n '-' ++ b)
    (n + b.length) ha]
  obtain ⟨m, rfl⟩ : ∃ m, n = m + 2 := ⟨n - 2, by omega⟩
  have hfuel : m + 2 + b.length = (m + 1 + b.length) + 1 := by omega
  rw [hfuel]
  have hshape : List.replicate (m + 2) '-' ++ b = '-' :: (List.replicate (m + 1) '-' ++ b) := by
    simp [List.replicate_succ]
  rw [hshape]
  have hcond : (!(List.replicate (m + 2) '-').isEmpty &&
      (List.replicate (m + 2) '-').isPrefixOf ('-' :: (List.replicate (m + 1) '-' ++ b))) =
      true := by
    rw [← hshape]
    simp [isPrefixOf_append_self, List.isEmpty_eq_true]
  simp only [pyReplaceLoop, hcond, if_pos]
  rw [← hshape]
  have hdrop : List.drop (List.replicate (m + 2) '-').length
      (List.replicate (m + 2) '-' ++ b) = b := List.drop_left _ _
  rw [hdrop]
  rw [pyReplaceLoop_of_not_mem (m + 2) (by omega) ['-'] b (m + 1 + b.length) hb]
  simp

/-- C4 counterexample: the value `1--2--3` stored under `pages` keeps both
double-hyphen runs — the claimed collapse to `1-2-3` does not happen, because
the code builds its search pattern from the total hyphen count (4 here) and
`----` occurs nowhere in the value. -/
theorem C4_pages_counterexample :
    parse_fields (chars "pages = \x7b1--2--3\x7d,") = [(chars "pages", chars "1--2--3")]
    ∧ pages_normalize (chars "1--2--3") = chars "1--2--3"
    ∧ collapseHyphenRuns (chars "1--2--3") = chars "1-2-3"
    ∧ chars "1--2--3" ≠ chars "1-2-3" := by
  decide

/-- C4 (amended): the pages rule collapses a hyphen run to a single hyphen
only when the value's hyphens form one single consecutive run of length at
least 2; a value whose hyphen count is at most 1 is left unchanged, and the
claim's two examples hold (`123--145` becomes `123-145` through the field
parser and `123-145` is unchanged). -/
theorem C4_pages_normalization_amended :
    (∀ (a b : List Char) (n : Nat), 2 ≤ n → '-' ∉ a → '-' ∉ b →
        pages_normalize (a ++ List.replicate n '-' ++ b) = a ++ '-' :: b)
    ∧ (∀ v : List Char, v.count '-' ≤ 1 → pages_normalize v = v)
    ∧ parse_fields (chars "pages = \x7b123--145\x7d,") = [(chars "pages", chars "123-145")]
    ∧ parse_fields (chars "pages = \x7b123-145\x7d,") = [(chars "pages", chars "123-145")] := by
  refine ⟨pages_normalize_single_run, ?_, by decide, by decide⟩
  intro v hv
  simp only [pages_normalize]
  rw [if_neg (by omega)]

/-- Witness for C4: the amended collapse rule applied to `123--145`, and the
unchanged-value rule applied to `7-9`. -/
theorem C4_pages_normalization_amended_witness :
    pages_normalize (chars "123" ++ List.replicate 2 '-' ++ chars "145") =
      chars "123" ++ '-' :: chars "145"
    ∧ pages_normalize (chars "7-9") = chars "7-9" := by
  constructor
  · exact C4_pages_normalization_amended.1 (chars "123") (chars "145") 2
      (by decide) (by decide) (by decide)
  · exact C4_pages_normalization_amended.2.1 (chars "7-9") (by decide)

/-! ## C8: frame property of remove_dummy_fields -/

theorem odDelete_eq_filter (m : List (List Char × List Char)) (k : List Char) :
    odDelete m k = m.filter (fun p => !(p.1 == k)) := rfl

theorem foldl_odDelete_eq_filter (ks : List (List Char)) :
    ∀ m : List (List Char × List Char),
      ks.foldl odDelete m = m.filter (fun p => !(ks.contains p.1)) := by
  induction ks with
  | nil => intro m; simp
  | cons k ks ih =>
    intro m
    rw [List.foldl_cons, ih (odDelete m k), odDelete_eq_filter, List.filter_filter]
    apply List.filter_congr
    intro p _
    have hbeq : (p.1 == k) = decide (p.1 = k) := by
      cases hk : p.1 == k
      · simp [(beq_iff_eq (a := p.1) (b := k)).symm, hk]
      · simp [(beq_iff_eq (a := p.1) (b := k)).symm, hk]
    simp [List.contains_cons, Bool.not_or, Bool.and_comm, hbeq]

/-- C8: `remove_dummy_fields` deletes at most the keys `timestamp`,
`abstract`, `keywords`, `owner`, plus `issn` and `url` when the entry type is
`article`; the result is exactly the filter of the original fields by the
complement of that key set, so every other field keeps its value in its
original relative position, and the entry type is never modified. -/
theorem C8_remove_dummy_fields_frame (e : BibEntry) :
    (remove_dummy_fields e).type = e.type
    ∧ (remove_dummy_fields e).fields =
        e.fields.filter (fun kv => !dummy_key e.type kv.1) := by
  constructor
  · rfl
  · show ([chars "timestamp", chars "abstract", chars "keywords", chars "owner"].foldl
        odDelete e.fields
        |> fun f1 => if e.type = chars "article" then
            [chars "issn", chars "url"].foldl odDelete f1 else f1) =
      e.fields.filter (fun kv => !dummy_key e.type kv.1)
    by_cases h : e.type = chars "article"
    · simp only [h, if_pos]
      rw [foldl_odDelete_eq_filter, foldl_odDelete_eq_filter, List.filter_filter]
      apply List.filter_congr
      intro p _
      have : (e.type == chars "article") = true := by rw [h]; simp
      simp [dummy_key, h, this, Bool.not_or, Bool.and_comm]
    · simp only [h, if_neg, if_false]
      rw [foldl_odDelete_eq_filter]
      apply List.filter_congr
      intro p _
      have : (e.type == chars "article") = false := by
        cases hb : e.type == chars "article"
        · rfl
        · exact absurd (by simpa [beq_iff_eq] using hb) h
      simp [dummy_key, this]

/-- Witness for C8: the frame property applied to a concrete article entry. -/
theorem C8_remove_dummy_fields_frame_witness :
    (remove_dummy_fields ⟨chars "article",
        [(chars "timestamp", chars "x"), (chars "issn", chars "1"),
         (chars "url", chars "u"), (chars "title", chars "T")]⟩).type = chars "article"
    ∧ (remove_dummy_fields ⟨chars "article",
        [(chars "timestamp", chars "x"), (chars "issn", chars "1"),
         (chars "url", chars "u"), (chars "title", chars "T")]⟩).fields =
      [(chars "timestamp", chars "x"), (chars "issn", chars "1"),
       (chars "url", chars "u"), (chars "title", chars "T")].filter
        (fun kv => !dummy_key (chars "article") kv.1) :=
  C8_remove_dummy_fields_frame ⟨chars "article",
    [(chars "timestamp", chars "x"), (chars "issn", chars "1"),
     (chars "url", chars "u"), (chars "title", chars "T")]⟩

/-! ## C10: record-boundary scanning is quote-blind -/

/-- C10: the record scanner of `read_bibtex_entries` counts every `\x7b` and
`\x7d` when matching a record's braces — its inner loop carries no quote
state at all, so a `\x7d` that brings the count to 0 ends the record span no
matter what preceded it; concretely, a document whose quoted field value
contains an unbalanced `\x7d` has its record cut short at that brace: the
parsed entry ends at the quoted brace and the following `y` field is lost. -/
theorem C10_record_scan_quote_blind :
    (∀ (content : List Char) (s index : Nat) (es : List (List Char × BibEntry))
        (fuel : Nat),
        index < content.length → content.getD index ' ' = '}' →
        read_entry_loop content (fuel + 1) s index 1 es =
          match process_bib_entry ((content.drop s).take (index + 1 - s)) es with
          | .error e => .error e
          | .ok es2 => .ok (es2, index))
    ∧ read_bibtex_entries (chars "@a\x7bk,\nt = \"x\x7d\",\ny = \x7b2\x7d\x7d") =
        .ok [(chars "k", ⟨chars "a", [(chars "t", chars "\"x\x7d")]⟩)] := by
  refine ⟨?_, by decide⟩
  intro content s index es fuel h1 h2
  rw [List.getD_eq_getElem?_getD, List.getElem?_eq_getElem h1, Option.getD_some] at h2
  simp [read_entry_loop, h1, h2]

/-- Witness for C10: the quote-blind stop rule applied at a concrete state. -/
theorem C10_record_scan_quote_blind_witness :
    read_entry_loop (chars "\x7d") 3 0 0 1 [] = .ok ([], 0) := by
  have h := C10_record_scan_quote_blind.1 (chars "\x7d") 0 0 [] 2 (by decide) (by decide)
  exact h.trans (by decide)

/-! ## C5: name abbreviation -/

theorem splitWSAux_ne_nil :
    ∀ (s cur : List Char), ∀ t ∈ splitWSAux s cur, t ≠ [] := by
  intro s
  induction s with
  | nil =>
    intro cur t ht
    by_cases h : cur.isEmpty
    · simp [splitWSAux, h] at ht
    · simp [splitWSAux, h] at ht
      subst ht
      simp [List.isEmpty_eq_true] at h
      simpa using h
  | cons c s ih =>
    intro cur t ht
    by_cases hsp : isPySpace c
    · by_cases hcur : cur.isEmpty
      · simp [splitWSAux, hsp, hcur] at ht
        exact ih [] t ht
      · simp [splitWSAux, hsp, hcur] at ht
        rcases ht with rfl | ht
        · simp [List.isEmpty_eq_true] at hcur
          simpa using hcur
        · exact ih [] t ht
    · simp [splitWSAux, hsp] at ht
      exact ih (c :: cur) t ht

theorem pySplitWS_ne_nil (s : List Char) : ∀ t ∈ pySplitWS s, t ≠ [] :=
  splitWSAux_ne_nil s []

theorem joinSep_cons_of_ne (sep x : List Char) (xs : List (List Char)) (h : xs ≠ []) :
    joinSep sep (x :: xs) = x ++ sep ++ joinSep sep xs := by
  cases xs with
  | nil => exact absurd rfl h
  | cons y t => rfl

theorem joinSep_ne_nil (sep : List Char) (xs : List (List Char)) (h1 : xs ≠ [])
    (h2 : ∀ x ∈ xs, x ≠ []) : joinSep sep xs ≠ [] := by
  cases xs with
  | nil => exact absurd rfl h1
  | cons x t =>
    cases t with
    | nil => exact h2 x (by simp)
    | cons y u =>
      have hx : x ≠ [] := h2 x (by simp)
      simp [joinSep, hx]

theorem filter_eq_self_of_ne_nil (xs : List (List Char)) (h : ∀ x ∈ xs, x ≠ []) :
    xs.filter (fun p => !p.isEmpty) = xs := by
  apply List.filter_eq_self.mpr
  intro x hx
  simpa [List.isEmpty_eq_true] using h x hx

theorem joinFilterSep_cons_nil (ps : List (List Char)) :
    joinFilterSep [' '] ([] :: ps) = joinFilterSep [' '] ps := by
  simp [joinFilterSep]

theorem joinFilterSep_singleton (x : List Char) : joinFilterSep [' '] [x] = x := by
  by_cases hx : x = []
  · subst hx; simp [joinFilterSep, joinSep]
  · have hx2 : x.isEmpty = false := by simpa [List.isEmpty_eq_true] using hx
    simp [joinFilterSep, List.filter_cons, hx2, joinSep]

theorem joinFilterSep_all_ne (ps : List (List Char)) (h : ∀ p ∈ ps, p ≠ []) :
    joinFilterSep [' '] ps = joinSep [' '] ps := by
  rw [joinFilterSep, filter_eq_self_of_ne_nil ps h]

theorem joinFilterSep_cons_ne (x : List Char) (ps : List (List Char)) (hx : x ≠ [])
    (hps : ∀ p ∈ ps, p ≠ []) (hne : ps ≠ []) :
    joinFilterSep [' '] (x :: ps) = x ++ ' ' :: joinFilterSep [' '] ps := by
  have hx2 : x.isEmpty = false := by simpa [List.isEmpty_eq_true] using hx
  rw [joinFilterSep, List.filter_cons]
  simp only [hx2, Bool.not_false, if_pos]
  rw [filter_eq_self_of_ne_nil ps hps, joinSep_cons_of_ne _ _ _ hne,
    joinFilterSep_all_ne ps hps]
  simp

theorem joinFilterSep_pair_flatten (acc : List Char) (letters : List (List Char))
    (h1 : letters ≠ []) (h2 : ∀ l ∈ letters, l ≠ []) :
    joinFilterSep [' '] (acc :: letters) =
      joinFilterSep [' '] [acc, joinSep [' '] letters] := by
  have hJ : joinSep [' '] letters ≠ [] := joinSep_ne_nil _ _ h1 h2
  by_cases hacc : acc = []
  · subst hacc
    rw [joinFilterSep_cons_nil, joinFilterSep_cons_nil, joinFilterSep_singleton,
      joinFilterSep_all_ne letters h2]
  · rw [joinFilterSep_cons_ne acc letters hacc h2 h1,
      joinFilterSep_cons_ne acc [joinSep [' '] letters] hacc (by simpa using hJ) (by simp),
      joinFilterSep_singleton, joinFilterSep_all_ne letters h2]

theorem joinFilterSep_assoc_pair (acc tok : List Char) (rest : List (List Char))
    (htok : tok ≠ []) :
    joinFilterSep [' '] (joinFilterSep [' '] [acc, tok] :: rest) =
      joinFilterSep [' '] (acc :: tok :: rest) := by
  by_cases hacc : acc = []
  · subst hacc
    rw [joinFilterSep_cons_nil, joinFilterSep_cons_nil, joinFilterSep_singleton]
  · have hacc2 : acc.isEmpty = false := by simpa [List.isEmpty_eq_true] using hacc
    have htok2 : tok.isEmpty = false := by simpa [List.isEmpty_eq_true] using htok
    have hinner : joinFilterSep [' '] [acc, tok] = acc ++ [' '] ++ tok := by
      simp [joinFilterSep, List.filter_cons, hacc2, htok2, joinSep]
    rw [hinner]
    have hinner2 : (acc ++ [' '] ++ tok).isEmpty = false := by
      simp [List.isEmpty_eq_true, hacc]
    rw [joinFilterSep, joinFilterSep, List.filter_cons, List.filter_cons, List.filter_cons]
    simp only [hinner2, hacc2, htok2, Bool.not_false, if_pos]
    cases hF : rest.filter (fun p => !p.isEmpty) with
    | nil => simp [joinSep]
    | cons r rs =>
      rw [joinSep_cons_of_ne [' '] (acc ++ [' '] ++ tok) (r :: rs) (by simp),
        joinSep_cons_of_ne [' '] acc (tok :: r :: rs) (by simp),
        joinSep_cons_of_ne [' '] tok (r :: rs) (by simp)]
      simp

theorem code_abbrev_token_ne_nil (p : List Char) (hp : p ≠ []) :
    code_abbrev_token p ≠ [] := by
  obtain ⟨c, t, rfl⟩ : ∃ c t, p = c :: t := by
    cases p with
    | nil => exact absurd rfl hp
    | cons c t => exact ⟨c, t, rfl⟩
  by_cases hup : is_all_uppercase (c :: t) = true
  · simp only [code_abbrev_token, hup, if_pos]
    exact joinSep_ne_nil _ _ (by simp) (by intro x hx; simp at hx; rcases hx with rfl | ⟨l, _, rfl⟩ <;> simp)
  · simp only [code_abbrev_token, hup]
    by_cases hal : pyIsAlpha (c :: t) = true
    · simp [hal]
    · simp [Bool.of_not_eq_true hup, Bool.of_not_eq_true hal]

theorem abbreviate_step_eq (acc p : List Char) (hp : p ≠ []) :
    abbreviate_step acc p = joinFilterSep [' '] [acc, code_abbrev_token p] := by
  obtain ⟨c, t, rfl⟩ : ∃ c t, p = c :: t := by
    cases p with
    | nil => exact absurd rfl hp
    | cons c t => exact ⟨c, t, rfl⟩
  by_cases hup : is_all_uppercase (c :: t) = true
  · simp only [abbreviate_step, code_abbrev_token, hup, if_pos]
    exact joinFilterSep_pair_flatten acc _ (by simp)
      (by intro x hx; simp at hx; rcases hx with rfl | ⟨l, _, rfl⟩ <;> simp)
  · simp only [abbreviate_step, code_abbrev_token, Bool.of_not_eq_true hup,
      Bool.false_eq_true, if_false]

theorem abbreviate_foldl (parts : List (List Char)) :
    ∀ acc, (∀ p ∈ parts, p ≠ []) →
      parts.foldl abbreviate_step acc =
        joinFilterSep [' '] (acc :: parts.map code_abbrev_token) := by
  induction parts with
  | nil =>
    intro acc _
    rw [List.foldl_nil, List.map_nil, joinFilterSep_singleton]
  | cons p ps ih =>
    intro acc h
    rw [List.foldl_cons,
      ih (abbreviate_step acc p) (fun q hq => h q (List.mem_cons_of_mem _ hq)),
      abbreviate_step_eq acc p (h p (List.mem_cons_self p ps)), List.map_cons]
    exact joinFilterSep_assoc_pair acc (code_abbrev_token p) (ps.map code_abbrev_token)
      (code_abbrev_token_ne_nil p (h p (List.mem_cons_self p ps)))

/-- C5 counterexample: on the purely alphabetic token `john` the code returns
`J.` — it uppercases the first letter — while the claim's rule ("its first
letter followed by a period") yields `j.`. -/
theorem C5_abbreviate_name_counterexample :
    abbreviate_name (chars "john") = chars "J."
    ∧ claimed_abbreviate_name (chars "john") = chars "j."
    ∧ chars "J." ≠ chars "j." := by
  decide

/-- C5 (amended): `abbreviate_name` splits on whitespace after inserting a
space after every period, maps each token — an all-uppercase alphabetic token
becomes its letters each suffixed with a period, any other purely alphabetic
token becomes its first letter UPPERCASED followed by a period, any other
token is unchanged — and joins the surviving non-empty tokens with single
spaces; `abbreviate_name "JRR" = "J. R. R."` and
`abbreviate_name "John Ronald" = "J. R."`. -/
theorem C5_abbreviate_name_amended :
    (∀ name : List Char, abbreviate_name name = amended_abbreviate_name name)
    ∧ abbreviate_name (chars "JRR") = chars "J. R. R."
    ∧ abbreviate_name (chars "John Ronald") = chars "J. R." := by
  refine ⟨?_, by decide, by decide⟩
  intro name
  rw [abbreviate_name, amended_abbreviate_name,
    abbreviate_foldl _ [] (pySplitWS_ne_nil _), joinFilterSep_cons_nil]

/-- Witness for C5: the amended description applied to a concrete name. -/
theorem C5_abbreviate_name_amended_witness :
    abbreviate_name (chars "Ada B. lovelace") =
      amended_abbreviate_name (chars "Ada B. lovelace") :=
  C5_abbreviate_name_amended.1 (chars "Ada B. lovelace")

/-! ## C9: totality of the scanners -/

theorem extract_value_loop_index_bounds (text : List Char) :
    ∀ (fuel index : Nat) (lvl : Int) (q : Bool) (acc : List Char),
      index ≤ (extract_value_loop text fuel index lvl q acc).2
      ∧ (extract_value_loop text fuel index lvl q acc).2 ≤ max index text.length := by
  intro fuel
  induction fuel with
  | zero =>
    intro index lvl q acc
    exact ⟨Nat.le_refl _, Nat.le_max_left _ _⟩
  | succ f ih =>
    intro index lvl q acc
    by_cases h : index < text.length
    · have key : ∀ (lvl : Int) (q : Bool) (acc : List Char),
          index ≤ (extract_value_loop text f (index + 1) lvl q acc).2
          ∧ (extract_value_loop text f (index + 1) lvl q acc).2 ≤ max index text.length := by
        intro lvl q acc
        obtain ⟨ha, hb⟩ := ih (index + 1) lvl q acc
        rw [Nat.max_eq_right h] at hb
        rw [Nat.max_eq_right (Nat.le_of_lt h)]
        exact ⟨by omega, hb⟩
      simp only [extract_value_loop]
      rw [if_pos h]
      split_ifs <;> first
        | exact ⟨Nat.le_refl _, Nat.le_max_left _ _⟩
        | apply key
    · simp only [extract_value_loop]
      rw [if_neg h]
      exact ⟨Nat.le_refl _, Nat.le_max_left _ _⟩

theorem extract_value_loop_fuel_invariant (text : List Char) :
    ∀ (f1 f2 index : Nat) (lvl : Int) (q : Bool) (acc : List Char),
      text.length - index < f1 → text.length - index < f2 →
      extract_value_loop text f1 index lvl q acc =
        extract_value_loop text f2 index lvl q acc := by
  intro f1
  induction f1 with
  | zero => intro f2 index lvl q acc h1 _; exact absurd h1 (Nat.not_lt_zero _)
  | succ a ih =>
    intro f2 index lvl q acc h1 h2
    cases f2 with
    | zero => exact absurd h2 (Nat.not_lt_zero _)
    | succ b =>
      by_cases h : index < text.length
      · simp only [extract_value_loop]
        rw [if_pos h, if_pos h]
        have hrec : ∀ (lvl : Int) (q : Bool) (acc : List Char),
            extract_value_loop text a (index + 1) lvl q acc =
              extract_value_loop text b (index + 1) lvl q acc := by
          intro lvl q acc
          exact ih b (index + 1) lvl q acc (by omega) (by omega)
        split_ifs <;> first | rfl | apply hrec
      · simp only [extract_value_loop]
        rw [if_neg h, if_neg h]

theorem skip_ws_loop_index_ge (text : List Char) :
    ∀ (fuel index : Nat), index ≤ skip_ws_loop text fuel index := by
  intro fuel
  induction fuel with
  | zero => intro index; exact Nat.le_refl _
  | succ f ih =>
    intro index
    simp only [skip_ws_loop]
    split_ifs with h
    · exact Nat.le_trans (Nat.le_succ _) (ih (index + 1))
    · exact Nat.le_refl _

theorem parse_fields_loop_fuel_invariant (field_text : List Char) :
    ∀ (f1 f2 index : Nat) (fields : List (List Char × List Char)),
      field_text.length - index < f1 → field_text.length - index < f2 →
      parse_fields_loop field_text f1 index fields =
        parse_fields_loop field_text f2 index fields := by
  intro f1
  induction f1 with
  | zero => intro f2 index fields h1 _; exact absurd h1 (Nat.not_lt_zero _)
  | succ a ih =>
    intro f2 index fields h1 h2
    cases f2 with
    | zero => exact absurd h2 (Nat.not_lt_zero _)
    | succ b =>
      by_cases h : index < field_text.length
      · simp only [parse_fields_loop]
        rw [if_pos h, if_pos h]
        split_ifs with heq
        · have hskip : index + 1 ≤
              skip_ws_loop field_text (field_text.length + 1) (index + 1) :=
            skip_ws_loop_index_ge field_text _ _
          have hext : skip_ws_loop field_text (field_text.length + 1) (index + 1) ≤
              (extract_value field_text
                (skip_ws_loop field_text (field_text.length + 1) (index + 1))).2 :=
            (extract_value_loop_index_bounds field_text _ _ _ _ _).1
          apply ih <;> omega
        · exact ih b (index + 1) fields (by omega) (by omega)
      · simp only [parse_fields_loop]
        rw [if_neg h, if_neg h]

theorem read_entry_loop_index_bounds (content : List Char) :
    ∀ (fuel s index : Nat) (bc : Int) (es es2 : List (List Char × BibEntry)) (j : Nat),
      read_entry_loop content fuel s index bc es = .ok (es2, j) →
      index ≤ j ∧ j ≤ max index content.length := by
  intro fuel
  induction fuel with
  | zero =>
    intro s index bc es es2 j h
    simp only [read_entry_loop] at h
    injection h with h
    injection h with h1 h2
    subst h2
    exact ⟨Nat.le_refl _, Nat.le_max_left _ _⟩
  | succ f ih =>
    intro s index bc es es2 j h
    by_cases hlt : index < content.length
    · have key : ∀ (bc : Int) (es : List (List Char × BibEntry)),
          read_entry_loop content f s (index + 1) bc es = .ok (es2, j) →
          index ≤ j ∧ j ≤ max index content.length := by
        intro bc es hh
        obtain ⟨ha, hb⟩ := ih s (index + 1) bc es es2 j hh
        rw [Nat.max_eq_right hlt] at hb
        rw [Nat.max_eq_right (Nat.le_of_lt hlt)]
        exact ⟨by omega, hb⟩
      simp only [read_entry_loop] at h
      rw [if_pos hlt] at h
      split_ifs at h with h1 h2 h3
      · exact key _ _ h
      · revert h
        cases hp : process_bib_entry
            ((content.drop s).take (index + 1 - s)) es with
        | error e => intro h; exact absurd h (by simp)
        | ok es3 =>
          intro h
          injection h with h
          injection h with ha hb
          subst hb
          exact ⟨Nat.le_refl _, Nat.le_max_left _ _⟩
      · exact key _ _ h
      · exact key _ _ h
    · simp only [read_entry_loop] at h
      rw [if_neg hlt] at h
      injection h with h
      injection h with h1 h2
      subst h2
      exact ⟨Nat.le_refl _, Nat.le_max_left _ _⟩

theorem read_entry_loop_fuel_invariant (content : List Char) :
    ∀ (f1 f2 s index : Nat) (bc : Int) (es : List (List Char × BibEntry)),
      content.length - index < f1 → content.length - index < f2 →
      read_entry_loop content f1 s index bc es =
        read_entry_loop content f2 s index bc es := by
  intro f1
  induction f1 with
  | zero => intro f2 s index bc es h1 _; exact absurd h1 (Nat.not_lt_zero _)
  | succ a ih =>
    intro f2 s index bc es h1 h2
    cases f2 with
    | zero => exact absurd h2 (Nat.not_lt_zero _)
    | succ b =>
      by_cases h : index < content.length
      · simp only [read_entry_loop]
        rw [if_pos h, if_pos h]
        have hrec : ∀ (bc : Int) (es : List (List Char × BibEntry)),
            read_entry_loop content a s (index + 1) bc es =
              read_entry_loop content b s (index + 1) bc es := by
          intro bc es
          exact ih b s (index + 1) bc es (by omega) (by omega)
        split_ifs <;> first | rfl | apply hrec
      · simp only [read_entry_loop]
        rw [if_neg h, if_neg h]

theorem read_entries_loop_fuel_invariant (content : List Char) :
    ∀ (f1 f2 index : Nat) (es : List (List Char × BibEntry)),
      content.length - index < f1 → content.length - index < f2 →
      read_entries_loop content f1 index es = read_entries_loop content f2 index es := by
  intro f1
  induction f1 with
  | zero => intro f2 index es h1 _; exact absurd h1 (Nat.not_lt_zero _)
  | succ a ih =>
    intro f2 index es h1 h2
    cases f2 with
    | zero => exact absurd h2 (Nat.not_lt_zero _)
    | succ b =>
      by_cases h : index < content.length
      · simp only [read_entries_loop]
        rw [if_pos h, if_pos h]
        split_ifs with hat
        · cases hp : read_entry_loop content (content.length + 1) index index 0 es with
          | error e => rfl
          | ok r =>
            obtain ⟨hge, _⟩ := read_entry_loop_index_bounds content
              (content.length + 1) index index 0 es r.1 r.2 (by rw [hp])
            exact ih b (r.2 + 1) r.1 (by omega) (by omega)
        · exact ih b (index + 1) es (by omega) (by omega)
      · simp only [read_entries_loop]
        rw [if_neg h, if_neg h]

/-- C9: totality of the scanners.  The fuel embedding makes the loops total
by construction; the content of the claim is captured by (i) the extractor's
stop index never moves backwards and never exceeds the text length (each
iteration advances the index by one and the loop is guarded by
`index < length`, so no indexing occurs outside the string), (ii)-(iii) any
fuel beyond the number of remaining positions gives the same result for the
extractor and the field parser — the loops reach their exit condition within
`length - index` iterations, which is termination, (iv) the record scanner's
inner loop returns an index no smaller than where it started and no larger
than the text length, and (v) the outer record loop is likewise
fuel-insensitive beyond the text length. -/
theorem C9_scanner_totality :
    (∀ (text : List Char) (start : Nat),
        start ≤ (extract_value text start).2
        ∧ (extract_value text start).2 ≤ max start text.length)
    ∧ (∀ (text : List Char) (f1 f2 start : Nat) (lvl : Int) (q : Bool) (acc : List Char),
        text.length - start < f1 → text.length - start < f2 →
        extract_value_loop text f1 start lvl q acc =
          extract_value_loop text f2 start lvl q acc)
    ∧ (∀ (field_text : List Char) (f1 f2 : Nat),
        field_text.length < f1 → field_text.length < f2 →
        parse_fields_loop field_text f1 0 [] = parse_fields_loop field_text f2 0 [])
    ∧ (∀ (content : List Char) (fuel s index : Nat) (bc : Int)
        (es es2 : List (List Char × BibEntry)) (j : Nat),
        read_entry_loop content fuel s index bc es = .ok (es2, j) →
        index ≤ j ∧ j ≤ max index content.length)
    ∧ (∀ (content : List Char) (f1 f2 : Nat) (es : List (List Char × BibEntry)),
        content.length < f1 → content.length < f2 →
        read_entries_loop content f1 0 es = read_entries_loop content f2 0 es) := by
  refine ⟨?_, ?_, ?_, ?_, ?_⟩
  · intro text start
    exact extract_value_loop_index_bounds text (text.length + 1) start 0 false []
  · intro text f1 f2 start lvl q acc h1 h2
    exact extract_value_loop_fuel_invariant text f1 f2 start lvl q acc h1 h2
  · intro field_text f1 f2 h1 h2
    exact parse_fields_loop_fuel_invariant field_text f1 f2 0 [] (by omega) (by omega)
  · intro content fuel s index bc es es2 j h
    exact read_entry_loop_index_bounds content fuel s index bc es es2 j h
  · intro content f1 f2 es h1 h2
    exact read_entries_loop_fuel_invariant content f1 f2 0 es (by omega) (by omega)

/-- Witness for C9: every part applied at concrete inputs. -/
theorem C9_scanner_totality_witness :
    (0 ≤ (extract_value (chars "ab") 0).2
      ∧ (extract_value (chars "ab") 0).2 ≤ max 0 (chars "ab").length)
    ∧ extract_value_loop (chars "ab") 3 0 0 false [] =
        extract_value_loop (chars "ab") 4 0 0 false []
    ∧ parse_fields_loop (chars "a=b") 4 0 [] = parse_fields_loop (chars "a=b") 5 0 []
    ∧ (0 ≤ 0 ∧ 0 ≤ max 0 (chars "\x7d").length)
    ∧ read_entries_loop (chars "@") 2 0 [] = read_entries_loop (chars "@") 3 0 [] := by
  refine ⟨C9_scanner_totality.1 (chars "ab") 0, ?_, ?_, ?_, ?_⟩
  · exact C9_scanner_totality.2.1 (chars "ab") 3 4 0 0 false [] (by decide) (by decide)
  · exact C9_scanner_totality.2.2.1 (chars "a=b") 4 5 (by decide) (by decide)
  · exact C9_scanner_totality.2.2.2.1 (chars "\x7d") 2 0 0 1 [] [] 0 (by decide)
  · exact C9_scanner_totality.2.2.2.2 (chars "@") 2 3 [] (by decide) (by decide)

/-! ## C2: duplicate ids are fatal -/

theorem process_bib_entry_of_none (t : List Char) (es : List (List Char × BibEntry))
    (h : headerId? t = none) : process_bib_entry t es = .ok es := by
  simp only [headerId?] at h
  by_cases hb : '{' ∈ pyStrip ((pySplitOn '\n' t).headD [])
  · rw [if_pos hb] at h
    exact absurd h (by simp)
  · simp only [process_bib_entry]
    rw [if_neg hb]

theorem process_bib_entry_of_dup (t : List Char) (es : List (List Char × BibEntry))
    (id : List Char) (h : headerId? t = some id) (hm : id ∈ es.map Prod.fst) :
    process_bib_entry t es = .error id := by
  simp only [headerId?] at h
  by_cases hb : '{' ∈ pyStrip ((pySplitOn '\n' t).headD [])
  · rw [if_pos hb] at h
    injection h with h
    subst h
    simp only [process_bib_entry]
    rw [if_pos hb, if_pos hm]
  · rw [if_neg hb] at h
    exact absurd h (by simp)

theorem process_bib_entry_of_new (t : List Char) (es : List (List Char × BibEntry))
    (id : List Char) (h : headerId? t = some id) (hm : id ∉ es.map Prod.fst) :
    ∃ e, process_bib_entry t es = .ok (es ++ [(id, e)]) := by
  simp only [headerId?] at h
  by_cases hb : '{' ∈ pyStrip ((pySplitOn '\n' t).headD [])
  · rw [if_pos hb] at h
    injection h with h
    subst h
    simp only [process_bib_entry]
    rw [if_pos hb, if_neg hm]
    exact ⟨_, rfl⟩
  · rw [if_neg hb] at h
    exact absurd h (by simp)

theorem read_entry_loop_eq_scan (content : List Char) :
    ∀ (fuel s index : Nat) (bc : Int) (es : List (List Char × BibEntry)),
      read_entry_loop content fuel s index bc es =
        (match scan_entry_loop content fuel index bc with
         | (j, true) =>
             match process_bib_entry ((content.drop s).take (j + 1 - s)) es with
             | .error e => .error e
             | .ok es2 => .ok (es2, j)
         | (j, false) => .ok (es, j)) := by
  intro fuel
  induction fuel with
  | zero => intro s index bc es; rfl
  | succ f ih =>
    intro s index bc es
    by_cases h : index < content.length
    · simp only [read_entry_loop, scan_entry_loop]
      rw [if_pos h, if_pos h]
      split_ifs with h1 h2 h3
      · exact ih s (index + 1) (bc + 1) es
      · rfl
      · exact ih s (index + 1) (bc - 1) es
      · exact ih s (index + 1) bc es
    · simp only [read_entry_loop, scan_entry_loop]
      rw [if_neg h, if_neg h]


theorem read_entries_loop_eq_scan (content : List Char) :
    ∀ (fuel index : Nat) (es : List (List Char × BibEntry)),
      read_entries_loop content fuel index es =
        processList (scan_records_loop content fuel index) es := by
  intro fuel
  induction fuel with
  | zero => intro index es; rfl
  | succ f ih =>
    intro index es
    by_cases h : index < content.length
    · by_cases hat : content.getD index ' ' = '@'
      · simp only [read_entries_loop, scan_records_loop]
        rw [if_pos h, if_pos h, if_pos hat, if_pos hat]
        rw [read_entry_loop_eq_scan content (content.length + 1) index index 0 es]
        cases hr : scan_entry_loop content (content.length + 1) index 0 with
        | mk j brk =>
          cases brk with
          | true =>
            simp only
            cases hp : process_bib_entry ((content.drop index).take (j + 1 - index)) es with
            | error e =>
              simp [processList, hp]
            | ok es2 =>
              simp [processList, hp, ih (j + 1) es2]
          | false =>
            simp only
            exact ih (j + 1) es
      · simp only [read_entries_loop, scan_records_loop]
        rw [if_pos h, if_pos h, if_neg hat, if_neg hat]
        exact ih (index + 1) es
    · simp only [read_entries_loop, scan_records_loop]
      rw [if_neg h, if_neg h]
      rfl

theorem processList_ok_of_nodup :
    ∀ (ts : List (List Char)) (es : List (List Char × BibEntry)),
      (ts.filterMap headerId?).Nodup →
      (∀ id ∈ ts.filterMap headerId?, id ∉ es.map Prod.fst) →
      ∃ es2, processList ts es = .ok es2 := by
  intro ts
  induction ts with
  | nil => intro es _ _; exact ⟨es, rfl⟩
  | cons t tl ih =>
    intro es hnodup hdisj
    cases hid : headerId? t with
    | none =>
      rw [List.filterMap_cons, hid] at hnodup hdisj
      obtain ⟨es2, h2⟩ := ih es hnodup hdisj
      exact ⟨es2, by simp [processList, process_bib_entry_of_none t es hid, h2]⟩
    | some id =>
      rw [List.filterMap_cons, hid] at hnodup hdisj
      have hnew : id ∉ es.map Prod.fst := hdisj id (by simp)
      obtain ⟨e, he⟩ := process_bib_entry_of_new t es id hid hnew
      have hdisj2 : ∀ id2 ∈ tl.filterMap headerId?,
          id2 ∉ (es ++ [(id, e)]).map Prod.fst := by
        intro id2 h2
        simp only [List.map_append, List.mem_append]
        rintro (hin | hin)
        · exact hdisj id2 (by simp [h2]) hin
        · simp at hin
          subst hin
          exact (List.nodup_cons.mp hnodup).1 h2
      obtain ⟨es2, h2⟩ := ih (es ++ [(id, e)]) (List.nodup_cons.mp hnodup).2 hdisj2
      exact ⟨es2, by simp [processList, he, h2]⟩

theorem processList_error_of_dup :
    ∀ (ts : List (List Char)) (es : List (List Char × BibEntry)),
      (¬ (ts.filterMap headerId?).Nodup
        ∨ ∃ id ∈ ts.filterMap headerId?, id ∈ es.map Prod.fst) →
      ∃ id, processList ts es = .error id := by
  intro ts
  induction ts with
  | nil =>
    intro es h
    rcases h with h | ⟨id, hmem, _⟩
    · exact absurd List.nodup_nil h
    · simp at hmem
  | cons t tl ih =>
    intro es h
    cases hid : headerId? t with
    | none =>
      rw [List.filterMap_cons, hid] at h
      obtain ⟨id, h2⟩ := ih es h
      exact ⟨id, by simp [processList, process_bib_entry_of_none t es hid, h2]⟩
    | some i =>
      rw [List.filterMap_cons, hid] at h
      by_cases hdup : i ∈ es.map Prod.fst
      · exact ⟨i, by simp [processList, process_bib_entry_of_dup t es i hid hdup]⟩
      · obtain ⟨e, he⟩ := process_bib_entry_of_new t es i hid hdup
        have hnext : ¬ (tl.filterMap headerId?).Nodup
            ∨ ∃ id ∈ tl.filterMap headerId?, id ∈ (es ++ [(i, e)]).map Prod.fst := by
          rcases h with h | ⟨id, hmem, hin⟩
          · rw [List.nodup_cons] at h
            by_cases hnd : (tl.filterMap headerId?).Nodup
            · have hmem : i ∈ tl.filterMap headerId? := by
                by_contra hni
                exact h ⟨hni, hnd⟩
              refine Or.inr ⟨i, hmem, ?_⟩
              rw [List.map_append]
              exact List.mem_append_right _ (by simp)
            · exact Or.inl hnd
          · rcases List.mem_cons.mp hmem with rfl | hmem2
            · exact absurd hin hdup
            · exact Or.inr ⟨id, hmem2, by simp [hin]⟩
        obtain ⟨id, h2⟩ := ih (es ++ [(i, e)]) hnext
        exact ⟨id, by simp [processList, he, h2]⟩

theorem processList_error_implies :
    ∀ (ts : List (List Char)) (es : List (List Char × BibEntry)) (id : List Char),
      processList ts es = .error id →
      id ∈ ts.filterMap headerId?
      ∧ (id ∈ es.map Prod.fst ∨ 2 ≤ (ts.filterMap headerId?).count id) := by
  intro ts
  induction ts with
  | nil => intro es id h; exact absurd h (by simp [processList])
  | cons t tl ih =>
    intro es id h
    cases hid : headerId? t with
    | none =>
      rw [processList, process_bib_entry_of_none t es hid] at h
      rw [List.filterMap_cons, hid]
      exact ih es id h
    | some i =>
      by_cases hdup : i ∈ es.map Prod.fst
      · rw [processList, process_bib_entry_of_dup t es i hid hdup] at h
        injection h with h
        subst h
        rw [List.filterMap_cons, hid]
        exact ⟨by simp, Or.inl hdup⟩
      · obtain ⟨e, he⟩ := process_bib_entry_of_new t es i hid hdup
        rw [processList, he] at h
        obtain ⟨hmem, hrest⟩ := ih (es ++ [(i, e)]) id h
        rw [List.filterMap_cons, hid]
        refine ⟨by simp [hmem], ?_⟩
        rcases hrest with hin | hcount
        · simp only [List.map_append, List.mem_append] at hin
          rcases hin with hin | hin
          · exact Or.inl hin
          · simp at hin
            subst hin
            refine Or.inr ?_
            rw [List.count_cons_self]
            have : 1 ≤ (tl.filterMap headerId?).count id := List.count_pos_iff.mpr hmem
            omega
        · refine Or.inr ?_
          rw [List.count_cons]
          omega

/-- C2: duplicate ids are fatal.  (i) Whenever a record's citation id is
already present among the parsed entries, `process_bib_entry` stops with the
duplicate-key error naming that id — in particular the existing entry is
never overwritten.  (ii) A document whose scanned records have pairwise
distinct ids parses without any error.  (iii) A document whose scanned
records repeat an id fails fatally with an error naming an id that occurs at
least twice. -/
theorem C2_duplicate_ids_fatal :
    (∀ (t : List Char) (es : List (List Char × BibEntry)) (id : List Char),
        headerId? t = some id → id ∈ es.map Prod.fst →
        process_bib_entry t es = .error id)
    ∧ (∀ content : List Char,
        ((recordsOf content).filterMap headerId?).Nodup →
        ∃ es, read_bibtex_entries content = .ok es)
    ∧ (∀ content : List Char,
        ¬ ((recordsOf content).filterMap headerId?).Nodup →
        ∃ id, read_bibtex_entries content = .error id
          ∧ 2 ≤ ((recordsOf content).filterMap headerId?).count id) := by
  refine ⟨process_bib_entry_of_dup, ?_, ?_⟩
  · intro content hnodup
    rw [read_bibtex_entries, read_entries_loop_eq_scan]
    exact processList_ok_of_nodup (recordsOf content) [] hnodup (by simp)
  · intro content hdup
    rw [read_bibtex_entries, read_entries_loop_eq_scan]
    obtain ⟨id, herr⟩ := processList_error_of_dup (recordsOf content) [] (Or.inl hdup)
    obtain ⟨_, hrest⟩ := processList_error_implies (recordsOf content) [] id herr
    refine ⟨id, herr, ?_⟩
    rcases hrest with hin | hcount
    · simp at hin
    · exact hcount

/-- Witness for C2: all three parts applied to concrete inputs — a record
whose id `k` is already taken errors with `k`; a two-record document with
distinct ids parses; the same document with both ids equal fails naming the
repeated id. -/
theorem C2_duplicate_ids_fatal_witness :
    process_bib_entry (chars "@a\x7bk,\n\x7d")
        [(chars "k", ⟨chars "a", []⟩)] = .error (chars "k")
    ∧ (∃ es, read_bibtex_entries (chars "@a\x7bx\x7d@b\x7by\x7d") = .ok es)
    ∧ (∃ id, read_bibtex_entries (chars "@a\x7bx\x7d@b\x7bx\x7d") = .error id
        ∧ 2 ≤ ((recordsOf (chars "@a\x7bx\x7d@b\x7bx\x7d")).filterMap headerId?).count id) := by
  refine ⟨?_, ?_, ?_⟩
  · exact C2_duplicate_ids_fatal.1 (chars "@a\x7bk,\n\x7d") [(chars "k", ⟨chars "a", []⟩)]
      (chars "k") (by decide) (by decide)
  · exact C2_duplicate_ids_fatal.2.1 (chars "@a\x7bx\x7d@b\x7by\x7d") (by decide)
  · exact C2_duplicate_ids_fatal.2.2 (chars "@a\x7bx\x7d@b\x7bx\x7d") (by decide)

theorem TailB_nil : TailB [] = ['}'] := rfl

theorem TailB_cons (kv : List Char × List Char) (tl : List (List Char × List Char)) :
    TailB (kv :: tl) =
      '\t' :: kv.1 ++ ' ' :: '=' :: ' ' :: '{' :: kv.2 ++ '}' :: ',' :: '\n' :: TailB tl := by
  simp [TailB, LofB, SegB]

theorem entry2str_shape (key : List Char) (e : BibEntry) :
    entry2str key e =
      ('@' :: e.type ++ '{' :: key ++ [',']) ++ '\n' :: (TailB e.fields ++ ['\n', '\n']) := by
  have hfold : ∀ (fs : List (List Char × List Char)) (s : List Char),
      (fs.foldl (fun s kv =>
        s ++ '\n' :: '\t' :: kv.1 ++ chars " = " ++ '{' :: kv.2 ++ chars "\x7d,") s)
        ++ '\n' :: chars "\x7d\n\n" = s ++ '\n' :: (TailB fs ++ ['\n', '\n']) := by
    intro fs
    induction fs with
    | nil => intro s; rfl
    | cons kv tl ih =>
      intro s
      rw [List.foldl_cons, ih, TailB_cons]
      simp [chars]
  rw [entry2str]
  exact hfold e.fields _

theorem pySplitOn_shape (sep : Char) (s : List Char) :
    ∃ g gs, pySplitOn sep s = g :: gs := by
  induction s with
  | nil => exact ⟨[], [], rfl⟩
  | cons c t ih =>
    obtain ⟨g, gs, hgs⟩ := ih
    by_cases h : c = sep
    · exact ⟨[], g :: gs, by simp [pySplitOn] at hgs ⊢; simp [hgs, h]⟩
    · exact ⟨c :: g, gs, by simp [pySplitOn] at hgs ⊢; simp [hgs, h]⟩

theorem pySplitOn_cons_eq (sep c : Char) (s g : List Char) (gs : List (List Char))
    (hgs : pySplitOn sep s = g :: gs) :
    pySplitOn sep (c :: s) = if c = sep then [] :: g :: gs else (c :: g) :: gs := by
  have : pySplitOn sep (c :: s) =
      (match pySplitOn sep s with
       | [] => [[c]]
       | g :: gs => if c = sep then [] :: g :: gs else (c :: g) :: gs) := rfl
  rw [this, hgs]

theorem pySplitOn_append_sep (sep : Char) (a : List Char) (ha : sep ∉ a) :
    ∀ b, pySplitOn sep (a ++ sep :: b) = a :: pySplitOn sep b := by
  induction a with
  | nil =>
    intro b
    obtain ⟨g, gs, hgs⟩ := pySplitOn_shape sep b
    rw [List.nil_append, pySplitOn_cons_eq sep sep b g gs hgs, if_pos rfl, ← hgs]
  | cons c a ih =>
    intro b
    have hc : c ≠ sep := fun h => ha (h ▸ List.mem_cons_self c a)
    have ha2 : sep ∉ a := fun h => ha (List.mem_cons_of_mem c h)
    obtain ⟨g, gs, hgs⟩ := pySplitOn_shape sep (a ++ sep :: b)
    rw [List.cons_append, pySplitOn_cons_eq sep c (a ++ sep :: b) g gs hgs, if_neg hc]
    have h2 : a :: pySplitOn sep b = g :: gs := (ih ha2 b).symm.trans hgs
    injection h2 with h3 h4
    rw [← h3, ← h4]

theorem joinSep_pySplitOn (sep : Char) (s : List Char) :
    joinSep [sep] (pySplitOn sep s) = s := by
  induction s with
  | nil => rfl
  | cons c t ih =>
    obtain ⟨g, gs, hgs⟩ := pySplitOn_shape sep t
    rw [pySplitOn_cons_eq sep c t g gs hgs]
    rw [hgs] at ih
    by_cases h : c = sep
    · rw [if_pos h]
      rw [joinSep_cons_of_ne [sep] [] (g :: gs) (by simp), ih, h]
      rfl
    · rw [if_neg h]
      cases gs with
      | nil =>
        simp only [joinSep] at ih ⊢
        rw [ih]
      | cons g2 gs2 =>
        rw [joinSep_cons_of_ne [sep] (c :: g) (g2 :: gs2) (by simp)]
        rw [joinSep_cons_of_ne [sep] g (g2 :: gs2) (by simp)] at ih
        simp only [List.cons_append]
        rw [ih]

theorem pyLStrip_cons_not_ws (c : Char) (t : List Char) (h : isPySpace c = false) :
    pyLStrip (c :: t) = c :: t := by
  simp [pyLStrip, List.dropWhile_cons, h]

theorem pyLStrip_cons_ws (c : Char) (t : List Char) (h : isPySpace c = true) :
    pyLStrip (c :: t) = pyLStrip t := by
  simp [pyLStrip, List.dropWhile_cons, h]

theorem pyRStrip_append_not_ws (t : List Char) (c : Char) (h : isPySpace c = false) :
    pyRStrip (t ++ [c]) = t ++ [c] := by
  simp [pyRStrip, List.dropWhile_cons, h]

theorem pyRStrip_append_ws (t : List Char) (c : Char) (h : isPySpace c = true) :
    pyRStrip (t ++ [c]) = pyRStrip t := by
  simp [pyRStrip, List.dropWhile_cons, h]

theorem pyLStrip_length_le (s : List Char) : (pyLStrip s).length ≤ s.length :=
  (List.dropWhile_sublist _).length_le

theorem pyRStrip_length_le (s : List Char) : (pyRStrip s).length ≤ s.length := by
  rw [pyRStrip, List.length_reverse]
  calc (s.reverse.dropWhile isPySpace).length ≤ s.reverse.length :=
        (List.dropWhile_sublist _).length_le
    _ = s.length := List.length_reverse s

theorem head_not_ws_of_strip (s : List Char) (h : pyStrip s = s) :
    ∀ c t, s = c :: t → isPySpace c = false := by
  intro c t hct
  by_contra hws
  have hws2 : isPySpace c = true := by
    cases hb : isPySpace c
    · exact absurd hb hws
    · rfl
  subst hct
  have h1 : pyLStrip (c :: t) = pyLStrip t := pyLStrip_cons_ws c t hws2
  have h2 : (pyStrip (c :: t)).length ≤ t.length := by
    rw [pyStrip, h1]
    calc (pyRStrip (pyLStrip t)).length ≤ (pyLStrip t).length := pyRStrip_length_le _
      _ ≤ t.length := pyLStrip_length_le _
  rw [h] at h2
  simp at h2

theorem getLast_not_ws_of_strip (s : List Char) (h : pyStrip s = s) :
    ∀ c, s.getLast? = some c → isPySpace c = false := by
  intro c hlast
  by_contra hws
  have hws2 : isPySpace c = true := by
    cases hb : isPySpace c
    · exact absurd hb hws
    · rfl
  obtain ⟨t, rfl⟩ : ∃ t, s = t ++ [c] := List.getLast?_eq_some_iff.mp hlast
  cases hx : pyLStrip (t ++ [c]) with
  | nil =>
    have : pyStrip (t ++ [c]) = [] := by rw [pyStrip, hx]; rfl
    rw [h] at this
    simp at this
  | cons x0 xr =>
    obtain ⟨pre, hpre⟩ : (x0 :: xr) <:+ (t ++ [c]) := by
      rw [← hx]
      exact List.dropWhile_suffix _
    have hxlast : (x0 :: xr).getLast? = some c := by
      have : (pre ++ x0 :: xr).getLast? = some c := by rw [hpre]; exact List.getLast?_concat _
      rwa [List.getLast?_append_of_ne_nil pre (by simp)] at this
    obtain ⟨y, hy⟩ : ∃ y, x0 :: xr = y ++ [c] := List.getLast?_eq_some_iff.mp hxlast
    have hlen : (pyStrip (t ++ [c])).length ≤ y.length := by
      rw [pyStrip, hx, hy, pyRStrip_append_ws y c hws2]
      exact pyRStrip_length_le y
    have hylen : y.length + 1 ≤ t.length + 1 := by
      have h1 : (pyLStrip (t ++ [c])).length ≤ (t ++ [c]).length := pyLStrip_length_le _
      rw [hx, hy] at h1
      simpa using h1
    rw [h] at hlen
    simp at hlen
    omega

theorem pyStrip_sandwich (c : Char) (X : List Char) (d : Char)
    (hc : isPySpace c = false) (hd : isPySpace d = false) :
    pyStrip (c :: X ++ [d]) = c :: X ++ [d] := by
  rw [pyStrip, List.cons_append, pyLStrip_cons_not_ws c (X ++ [d]) hc, ← List.cons_append,
    pyRStrip_append_not_ws (c :: X) d hd]

theorem pyStrip_append_comma (key : List Char)
    (hk : ∀ c ∈ key.take 1, isPySpace c = false) :
    pyStrip (key ++ [',']) = key ++ [','] := by
  cases key with
  | nil => decide
  | cons k0 kr =>
    exact pyStrip_sandwich k0 kr ',' (hk k0 (by simp)) (by decide)

theorem dropWhile_comma_of_head (r : List Char) (h : r.head? ≠ some ',') :
    r.dropWhile (· = ',') = r := by
  cases r with
  | nil => rfl
  | cons r0 rr =>
    have : r0 ≠ ',' := fun he => h (by simp [he])
    simp [List.dropWhile_cons, this]

theorem pyRStripComma_append (key : List Char) (h : key.getLast? ≠ some ',') :
    pyRStripComma (key ++ [',']) = key := by
  rw [pyRStripComma, List.reverse_append,
    show ([','] : List Char).reverse ++ key.reverse = ',' :: key.reverse by simp]
  have h1 : (',' :: key.reverse).dropWhile (· = ',') = key.reverse.dropWhile (· = ',') := by
    simp [List.dropWhile_cons]
  rw [h1, dropWhile_comma_of_head key.reverse (by rwa [List.head?_reverse])]
  exact List.reverse_reverse key

theorem pyRStripComma_of_getLast (v : List Char) (h : v.getLast? ≠ some ',') :
    pyRStripComma v = v := by
  rw [pyRStripComma, dropWhile_comma_of_head v.reverse (by rwa [List.head?_reverse])]
  exact List.reverse_reverse v

theorem pyRStrip_close_nn (Z : List Char) (hz : Z.getLast? = some '}') :
    pyRStrip (Z ++ ['\n', '\n']) = Z := by
  obtain ⟨Y, rfl⟩ := List.getLast?_eq_some_iff.mp hz
  have hsh : (Y ++ ['}']) ++ ['\n', '\n'] = (((Y ++ ['}']) ++ ['\n']) ++ ['\n']) := by simp
  rw [hsh, pyRStrip_append_ws _ '\n' (by decide), pyRStrip_append_ws _ '\n' (by decide),
    pyRStrip_append_not_ws Y '}' (by decide)]

theorem TailB_getLast (fs : List (List Char × List Char)) :
    (TailB fs).getLast? = some '}' := by
  induction fs with
  | nil => rfl
  | cons kv tl ih =>
    have hne : TailB tl ≠ [] := by
      intro h
      rw [h] at ih
      exact absurd ih (by simp)
    rw [TailB_cons,
      show ('\t' :: kv.1 ++ ' ' :: '=' :: ' ' :: '{' :: kv.2 ++ '}' :: ',' :: '\n' ::
          TailB tl) =
        ('\t' :: kv.1 ++ ' ' :: '=' :: ' ' :: '{' :: kv.2 ++ ['}', ',', '\n']) ++ TailB tl
        by simp,
      List.getLast?_append_of_ne_nil _ hne]
    exact ih

theorem TailB_ne_nil (fs : List (List Char × List Char)) : TailB fs ≠ [] := by
  intro h
  have := TailB_getLast fs
  rw [h] at this
  exact absurd this (by simp)

theorem SegB_cons_getLast (kv : List Char × List Char) (tl : List (List Char × List Char)) :
    (SegB (kv :: tl)).getLast? = some '}' := by
  rw [show SegB (kv :: tl) =
      ('=' :: ' ' :: '{' :: kv.2 ++ ['}', ',', '\n']) ++ TailB tl by simp [SegB, TailB],
    List.getLast?_append_of_ne_nil _ (TailB_ne_nil tl)]
  exact TailB_getLast tl

theorem strip_TailB_nil : pyStrip (TailB [] ++ ['\n', '\n']) = ['}'] := by decide

theorem strip_TailB_cons (f v : List Char) (tl : List (List Char × List Char))
    (hstrip : pyStrip f = f) :
    pyStrip (TailB ((f, v) :: tl) ++ ['\n', '\n']) =
      (if f = [] then [] else f ++ [' ']) ++ SegB ((f, v) :: tl) := by
  obtain ⟨Srest, hS⟩ : ∃ r, SegB ((f, v) :: tl) = '=' :: r := ⟨_, rfl⟩
  have hSne : SegB ((f, v) :: tl) ≠ [] := by rw [hS]; simp
  have hSlast : (SegB ((f, v) :: tl)).getLast? = some '}' := SegB_cons_getLast (f, v) tl
  have hshape : TailB ((f, v) :: tl) ++ ['\n', '\n'] =
      '\t' :: (f ++ [' '] ++ (SegB ((f, v) :: tl) ++ ['\n', '\n'])) := by
    simp [TailB, LofB]
  rw [pyStrip, hshape, pyLStrip_cons_ws '\t' _ (by decide)]
  by_cases hf : f = []
  · subst hf
    rw [if_pos rfl]
    rw [show ([] : List Char) ++ [' '] ++ (SegB (([], v) :: tl) ++ ['\n', '\n']) =
        ' ' :: (SegB (([], v) :: tl) ++ ['\n', '\n']) by simp,
      pyLStrip_cons_ws ' ' _ (by decide),
      show SegB ((([] : List Char), v) :: tl) ++ ['\n', '\n'] = '=' :: (Srest ++ ['\n', '\n'])
        by rw [hS]; simp,
      pyLStrip_cons_not_ws '=' _ (by decide),
      show ('=' :: (Srest ++ ['\n', '\n'])) = SegB (([], v) :: tl) ++ ['\n', '\n']
        by rw [hS]; simp,
      pyRStrip_close_nn _ hSlast]
    simp
  · obtain ⟨f0, fr, rfl⟩ : ∃ f0 fr, f = f0 :: fr := by
      cases f with
      | nil => exact absurd rfl hf
      | cons f0 fr => exact ⟨f0, fr, rfl⟩
    have hf0 : isPySpace f0 = false := head_not_ws_of_strip _ hstrip f0 fr rfl
    rw [if_neg hf]
    rw [show (f0 :: fr) ++ [' '] ++ (SegB ((f0 :: fr, v) :: tl) ++ ['\n', '\n']) =
        f0 :: (fr ++ [' '] ++ (SegB ((f0 :: fr, v) :: tl) ++ ['\n', '\n'])) by simp,
      pyLStrip_cons_not_ws f0 _ hf0,
      show f0 :: (fr ++ [' '] ++ (SegB ((f0 :: fr, v) :: tl) ++ ['\n', '\n'])) =
        ((f0 :: fr) ++ [' '] ++ SegB ((f0 :: fr, v) :: tl)) ++ ['\n', '\n'] by simp]
    rw [pyRStrip_close_nn _ ?hlast]
    case hlast =>
      rw [show (f0 :: fr) ++ [' '] ++ SegB ((f0 :: fr, v) :: tl) =
          ((f0 :: fr) ++ [' ']) ++ SegB ((f0 :: fr, v) :: tl) by simp,
        List.getLast?_append_of_ne_nil _ hSne]
      exact hSlast

theorem braceDelta_nil : braceDelta [] = 0 := rfl

theorem braceDelta_cons (c : Char) (t : List Char) :
    braceDelta (c :: t) =
      (if c = '{' then 1 else if c = '}' then -1 else 0) + braceDelta t := by
  by_cases hc1 : c = '{'
  · subst hc1
    simp [braceDelta, List.count_cons]
    ring
  · by_cases hc2 : c = '}'
    · subst hc2
      simp [braceDelta, List.count_cons, hc1]
      ring
    · simp [braceDelta, List.count_cons, hc1, hc2]

theorem extract_close :
    ∀ (v A B acc : List Char) (lvl : Int) (q : Bool) (m : Nat),
      (∀ i, i ≤ v.length → 1 ≤ lvl + braceDelta (v.take i)) →
      lvl + braceDelta v = 1 →
      extract_value_loop (A ++ v ++ '}' :: B) (v.length + 1 + m) A.length lvl q acc =
        ((if (acc ++ v ++ ['}']).head? = some '{' ∧ (acc ++ v ++ ['}']).getLast? = some '}'
          then ((acc ++ v ++ ['}']).drop 1).dropLast else acc ++ v ++ ['}']),
         A.length + v.length) := by
  intro v
  induction v with
  | nil =>
    intro A B acc lvl q m hpre hbal
    have hlvl : lvl = 1 := by
      rw [braceDelta_nil] at hbal
      omega
    subst hlvl
    rw [show A ++ ([] : List Char) ++ '}' :: B = A ++ '}' :: B by simp]
    have hlt : A.length < (A ++ '}' :: B).length := length_append_cons_pos A '}' B
    have hchar : (A ++ '}' :: B).getD A.length ' ' = '}' := getD_append_at A '}' B
    rw [show ([] : List Char).length + 1 + m = m + 1 by simp only [List.length_nil]; omega]
    rw [List.getD_eq_getElem?_getD, List.getElem?_eq_getElem hlt, Option.getD_some] at hchar
    simp [extract_value_loop, hlt, hchar]
  | cons c v ih =>
    intro A B acc lvl q m hpre hbal
    have htext : A ++ (c :: v) ++ '}' :: B = (A ++ [c]) ++ v ++ '}' :: B := by simp
    have hlt : A.length < (A ++ (c :: v) ++ '}' :: B).length := by simp
    have hchar : (A ++ (c :: v) ++ '}' :: B).getD A.length ' ' = c := by
      rw [show A ++ (c :: v) ++ '}' :: B = A ++ c :: (v ++ '}' :: B) by simp]
      exact getD_append_at A c _
    have hdc := braceDelta_cons c v
    have key : ∀ (lvl2 : Int) (q2 : Bool),
        (∀ i, i ≤ v.length → 1 ≤ lvl2 + braceDelta (v.take i)) →
        lvl2 + braceDelta v = 1 →
        extract_value_loop (A ++ (c :: v) ++ '}' :: B) (v.length + 1 + m)
            (A.length + 1) lvl2 q2 (acc ++ [c]) =
          ((if (acc ++ (c :: v) ++ ['}']).head? = some '{'
              ∧ (acc ++ (c :: v) ++ ['}']).getLast? = some '}'
            then ((acc ++ (c :: v) ++ ['}']).drop 1).dropLast else acc ++ (c :: v) ++ ['}']),
           A.length + (c :: v).length) := by
      intro lvl2 q2 h1 h2
      rw [htext, show A.length + 1 = (A ++ [c]).length by simp,
        ih (A ++ [c]) B (acc ++ [c]) lvl2 q2 m h1 h2,
        show acc ++ [c] ++ v ++ ['}'] = acc ++ (c :: v) ++ ['}'] by simp,
        show (A ++ [c]).length + v.length = A.length + (c :: v).length by
          simp only [List.length_append, List.length_cons, List.length_nil]; omega]
    have hstep : ∀ i, i ≤ v.length →
        1 ≤ (lvl + (if c = '{' then 1 else if c = '}' then -1 else 0)) +
          braceDelta (v.take i) := by
      intro i hi
      have := hpre (i + 1) (by simp [List.length_cons]; omega)
      rw [show (c :: v).take (i + 1) = c :: v.take i by simp, braceDelta_cons] at this
      omega
    have hbal2 : (lvl + (if c = '{' then 1 else if c = '}' then -1 else 0)) +
        braceDelta v = 1 := by
      rw [hdc] at hbal
      omega
    have hfuel : (c :: v).length + 1 + m = (v.length + 1 + m) + 1 := by
      simp [List.length_cons]
      omega
    rw [hfuel]
    simp only [extract_value_loop]
    rw [if_pos hlt, hchar]
    by_cases hc1 : c = '{'
    · rw [if_pos hc1]
      have := key (lvl + 1) q (by intro i hi; have := hstep i hi; simp [hc1] at this ⊢; omega)
        (by simp [hc1] at hbal2; omega)
      rw [show acc ++ ['{'] = acc ++ [c] by rw [hc1]]
      exact this
    · rw [if_neg hc1]
      by_cases hc2 : c = '}'
      · rw [if_pos hc2]
        have hne : ¬ (lvl - 1 = 0) := by
          have := hpre 1 (by simp)
          rw [show (c :: v).take 1 = [c] by simp, braceDelta_cons, braceDelta_nil] at this
          simp [hc1, hc2] at this
          omega
        rw [if_neg hne]
        have := key (lvl - 1) q
          (by intro i hi; have := hstep i hi; simp [hc1, hc2] at this ⊢; omega)
          (by simp [hc1, hc2] at hbal2; omega)
        rw [show acc ++ ['}'] = acc ++ [c] by rw [hc2]]
        exact this
      · rw [if_neg hc2]
        by_cases hc3 : c = '"'
        · rw [if_pos hc3]
          have := key lvl (!q)
            (by intro i hi; have := hstep i hi; simp [hc1, hc2] at this ⊢; omega)
            (by simp [hc1, hc2] at hbal2; omega)
          rw [show acc ++ ['"'] = acc ++ [c] by rw [hc3]]
          exact this
        · rw [if_neg hc3]
          have hrec := key lvl q
            (by intro i hi; have := hstep i hi; simp [hc1, hc2] at this ⊢; omega)
            (by simp [hc1, hc2] at hbal2; omega)
          by_cases hc4 : c = ','
          · rw [if_pos hc4]
            have hlvl : ¬ (lvl = 0 ∧ q = false) := by
              have := hpre 0 (by simp)
              simp [braceDelta_nil] at this
              intro hcon
              omega
            rw [if_neg hlvl]
            rw [show acc ++ [','] = acc ++ [c] by rw [hc4]]
            exact hrec
          · rw [if_neg hc4]
            exact hrec

theorem extract_braced (v A B : List Char) (m : Nat)
    (hpre : ∀ i, i ≤ v.length → 0 ≤ braceDelta (v.take i)) (hbal : braceDelta v = 0) :
    extract_value_loop (A ++ '{' :: v ++ '}' :: B) (v.length + 2 + m) A.length 0 false [] =
      (v, A.length + v.length + 1) := by
  have hlt : A.length < (A ++ '{' :: v ++ '}' :: B).length := by simp
  have hchar : (A ++ '{' :: v ++ '}' :: B).getD A.length ' ' = '{' := by
    rw [show A ++ '{' :: v ++ '}' :: B = A ++ '{' :: (v ++ '}' :: B) by simp]
    exact getD_append_at A '{' _
  have hfuel : v.length + 2 + m = (v.length + 1 + m) + 1 := by omega
  rw [hfuel]
  simp only [extract_value_loop]
  rw [if_pos hlt, hchar, if_pos rfl, List.nil_append]
  rw [show A ++ '{' :: v ++ '}' :: B = (A ++ ['{']) ++ v ++ '}' :: B by simp,
    show A.length + 1 = (A ++ ['{']).length by simp]
  rw [extract_close v (A ++ ['{']) B ['{'] (0 + 1) false m
    (by intro i hi; have := hpre i hi; omega) (by omega)]
  have hhead : (['{'] ++ v ++ ['}']).head? = some '{' := rfl
  have hlast : (['{'] ++ v ++ ['}']).getLast? = some '}' := by
    rw [show (['{'] ++ v ++ ['}'] : List Char) = ('{' :: v) ++ ['}'] by simp]
    exact List.getLast?_concat _
  rw [if_pos ⟨hhead, hlast⟩]
  have hval : ((['{'] ++ v ++ ['}']).drop 1).dropLast = v := by
    rw [show (['{'] ++ v ++ ['}'] : List Char) = '{' :: (v ++ ['}']) by simp]
    simp [List.dropLast_concat]
  rw [hval,
    show (A ++ ['{']).length + v.length = A.length + v.length + 1 by
      simp only [List.length_append, List.length_cons, List.length_nil]
      omega]

theorem extract_value_at_braced (text A v B : List Char)
    (htext : text = A ++ '{' :: v ++ '}' :: B)
    (hpre : ∀ i, i ≤ v.length → 0 ≤ braceDelta (v.take i)) (hbal : braceDelta v = 0) :
    extract_value text A.length = (v, A.length + v.length + 1) := by
  rw [extract_value, htext,
    show (A ++ '{' :: v ++ '}' :: B).length + 1 =
        v.length + 2 + (A.length + B.length + 1) by
      simp only [List.length_append, List.length_cons]
      omega]
  exact extract_braced v A B (A.length + B.length + 1) hpre hbal

theorem parse_fields_loop_end (text : List Char) :
    ∀ (fuel index : Nat) (acc : List (List Char × List Char)),
      text.length ≤ index → parse_fields_loop text fuel index acc = acc := by
  intro fuel index acc h
  cases fuel with
  | zero => rfl
  | succ f =>
    simp only [parse_fields_loop]
    rw [if_neg (by omega)]

theorem parse_fields_walk (TEXT : List Char) :
    ∀ (L P R : List Char) (acc : List (List Char × List Char)) (fuel : Nat),
      TEXT = P ++ L ++ R → '=' ∉ L →
      parse_fields_loop TEXT (L.length + fuel) P.length acc =
        parse_fields_loop TEXT fuel (P.length + L.length) acc := by
  intro L
  induction L with
  | nil => intro P R acc fuel _ _; simp
  | cons c L ih =>
    intro P R acc fuel htext hne
    have hc : c ≠ '=' := fun h => hne (h ▸ List.mem_cons_self c L)
    have hlt : P.length < TEXT.length := by
      rw [htext, show P ++ (c :: L) ++ R = P ++ c :: (L ++ R) by simp]
      exact length_append_cons_pos P c (L ++ R)
    have hchar : TEXT.getD P.length ' ' = c := by
      rw [htext, show P ++ (c :: L) ++ R = P ++ c :: (L ++ R) by simp]
      exact getD_append_at P c (L ++ R)
    have hfuel : (c :: L).length + fuel = (L.length + fuel) + 1 := by
      simp only [List.length_cons]
      omega
    rw [hfuel]
    simp only [parse_fields_loop]
    rw [if_pos hlt, hchar, if_neg hc]
    have := ih (P ++ [c]) R acc fuel (by rw [htext]; simp) (fun h => hne (by simp [h]))
    rw [show (P ++ [c]).length = P.length + 1 by simp] at this
    rw [this,
      show P.length + 1 + L.length = P.length + (c :: L).length by
        simp only [List.length_cons]
        omega]

theorem findIdx_nl_append (M Q : List Char) (hM : '\n' ∉ M)
    (hQ : Q = [] ∨ Q.head? = some '\n') :
    (M ++ Q).findIdx (· == '\n') = M.length := by
  induction M with
  | nil =>
    rcases hQ with rfl | hhead
    · rfl
    · cases Q with
      | nil => simp at hhead
      | cons q0 qr =>
        injection hhead with hq
        subst hq
        simp [List.findIdx_cons]
  | cons c M ih =>
    have hc : (c == '\n') = false := by
      have : c ≠ '\n' := fun h => hM (h ▸ List.mem_cons_self c M)
      simpa using this
    rw [List.cons_append, List.findIdx_cons, hc, cond_false,
      ih (fun h => hM (List.mem_cons_of_mem c h))]
    simp

theorem skip_ws_two (text : List Char) (i fuel : Nat)
    (h1 : text.getD i ' ' = ' ') (hi : i < text.length)
    (h2 : text.getD (i + 1) ' ' = '{') :
    skip_ws_loop text (fuel + 2) i = i + 1 := by
  have hcond1 : (decide (i < text.length) && isFieldWS (text.getD i ' ')) = true := by
    rw [h1]
    simp [isFieldWS, hi]
  have hcond2 : (decide (i + 1 < text.length) && isFieldWS (text.getD (i + 1) ' ')) = false := by
    rw [h2]
    simp [isFieldWS]
  simp only [skip_ws_loop, hcond1, if_true, hcond2, Bool.false_eq_true, if_false]

theorem odInsert_append (m : List (List Char × List Char)) (k v : List Char)
    (h : k ∉ m.map Prod.fst) : odInsert m k v = m ++ [(k, v)] := by
  induction m with
  | nil => rfl
  | cons p t ih =>
    obtain ⟨k0, v0⟩ := p
    simp only [List.map_cons, List.mem_cons] at h
    push_neg at h
    rw [odInsert, if_neg (Ne.symm h.1), ih h.2]
    rfl

theorem strip_tab_space (f : List Char) (h : pyStrip f = f) :
    pyStrip ('\t' :: f ++ [' ']) = f := by
  cases f with
  | nil => decide
  | cons f0 fr =>
    have hf0 : isPySpace f0 = false := head_not_ws_of_strip _ h f0 fr rfl
    have hl : pyLStrip (f0 :: fr) = f0 :: fr := pyLStrip_cons_not_ws f0 fr hf0
    have hr : pyRStrip (f0 :: fr) = f0 :: fr := by
      rw [pyStrip, hl] at h
      exact h
    rw [show ('\t' :: (f0 :: fr) ++ [' ']) = '\t' :: ((f0 :: fr) ++ [' ']) by simp,
      pyStrip, pyLStrip_cons_ws '\t' _ (by decide),
      show (f0 :: fr) ++ [' '] = f0 :: (fr ++ [' ']) by simp,
      pyLStrip_cons_not_ws f0 _ hf0,
      show f0 :: (fr ++ [' ']) = (f0 :: fr) ++ [' '] by simp,
      pyRStrip_append_ws _ ' ' (by decide), hr]

theorem strip_field_space (f : List Char) (h : pyStrip f = f) :
    pyStrip (f ++ [' ']) = f := by
  cases f with
  | nil => decide
  | cons f0 fr =>
    have hf0 : isPySpace f0 = false := head_not_ws_of_strip _ h f0 fr rfl
    have hr : pyRStrip (f0 :: fr) = f0 :: fr := by
      rw [pyStrip, pyLStrip_cons_not_ws f0 fr hf0] at h
      exact h
    rw [show (f0 :: fr) ++ [' '] = f0 :: (fr ++ [' ']) by simp,
      pyStrip, pyLStrip_cons_not_ws f0 _ hf0,
      show f0 :: (fr ++ [' ']) = (f0 :: fr) ++ [' '] by simp,
      pyRStrip_append_ws _ ' ' (by decide), hr]

theorem getD_at_of_eq (TEXT A : List Char) (c : Char) (B : List Char) (n : Nat)
    (h : TEXT = A ++ c :: B) (hn : n = A.length) : TEXT.getD n ' ' = c := by
  subst h
  subst hn
  exact getD_append_at A c B

theorem lt_length_of_eq (TEXT A : List Char) (c : Char) (B : List Char) (n : Nat)
    (h : TEXT = A ++ c :: B) (hn : n = A.length) : n < TEXT.length := by
  subst h
  subst hn
  exact length_append_cons_pos A c B

theorem parse_fields_SegB :
    ∀ (fs : List (List Char × List Char)) (TEXT P L : List Char)
      (acc : List (List Char × List Char)) (fuel : Nat),
      TEXT = P ++ L ++ SegB fs →
      (P = [] ∨ P.getLast? = some '\n') →
      '\n' ∉ L → '=' ∉ L →
      (∀ kv ∈ fs.take 1, pyLower (pyStrip L) = kv.1) →
      (∀ kv ∈ fs, goodField kv) →
      (fs.map Prod.fst).Nodup →
      (∀ kv ∈ fs, kv.1 ∉ acc.map Prod.fst) →
      (L ++ SegB fs).length < fuel →
      parse_fields_loop TEXT fuel P.length acc = acc ++ fs := by
  intro fs
  induction fs with
  | nil =>
    intro TEXT P L acc fuel htext hP hLn hLe _ _ _ _ hfuel
    rw [show SegB [] = [] from rfl, List.append_nil] at htext
    simp only [SegB, List.append_nil, List.length_append] at hfuel
    rw [show fuel = L.length + (fuel - L.length) by omega,
      parse_fields_walk TEXT L P [] acc (fuel - L.length) (by rw [htext]; simp) hLe,
      parse_fields_loop_end TEXT _ _ _ (by rw [htext]; simp)]
    simp
  | cons kv tl ih =>
    obtain ⟨f, v⟩ := kv
    intro TEXT P L acc fuel htext hP hLn hLe hkeyL hgood hnodup hdisj hfuel
    obtain ⟨hfn, hfe, hfstrip, hflow, hvpre, hvbal, hvlast, hvnorm⟩ :=
      hgood (f, v) (List.mem_cons_self _ _)
    have hkey : pyLower (pyStrip L) = f := hkeyL (f, v) (by simp)
    -- segment decomposition
    have hSeg : SegB ((f, v) :: tl) =
        '=' :: ' ' :: '{' :: v ++ '}' :: ',' :: '\n' :: (LofB tl ++ SegB tl) := rfl
    have hSegLen : (SegB ((f, v) :: tl)).length =
        v.length + 6 + ((LofB tl).length + (SegB tl).length) := by
      rw [hSeg]
      simp
      omega
    -- step 1: walk through L
    have hL1 : L.length < fuel := by
      rw [List.length_append] at hfuel
      omega
    rw [show fuel = L.length + (fuel - L.length) by omega,
      parse_fields_walk TEXT L P (SegB ((f, v) :: tl)) acc (fuel - L.length)
        htext hLe]
    -- step 2: the PLACEHOLDER iteration
    have htext2 : TEXT = (P ++ L) ++ '=' :: (' ' :: '{' :: v ++ '}' :: ',' :: '\n' ::
        (LofB tl ++ SegB tl)) := by
      rw [htext, hSeg]
      simp
    have hfuel2 : (SegB ((f, v) :: tl)).length < fuel - L.length := by
      rw [List.length_append] at hfuel
      omega
    have heqlen : P.length + L.length = (P ++ L).length := by simp
    have hlt2 : P.length + L.length < TEXT.length := by
      rw [htext2, heqlen]
      exact length_append_cons_pos (P ++ L) '=' _
    have hchar2 : TEXT.getD (P.length + L.length) ' ' = '=' := by
      rw [htext2, heqlen]
      exact getD_append_at (P ++ L) '=' _
    rw [show fuel - L.length = (fuel - L.length - 1) + 1 by omega]
    simp only [parse_fields_loop]
    rw [if_pos hlt2, hchar2, if_pos rfl]
    simp only at hfn hfe hfstrip hflow hvpre hvbal hvlast hvnorm
    -- key computation
    have htake : TEXT.take (P.length + L.length) = P ++ L := by
      rw [htext2, heqlen]
      exact List.take_left (P ++ L) _
    have hfind : (P ++ L).reverse.findIdx (fun x => x == '\n') = L.length := by
      rw [List.reverse_append]
      rw [findIdx_nl_append L.reverse P.reverse (by simpa using hLn) ?hq]
      · exact List.length_reverse L
      case hq =>
        rcases hP with rfl | hlast
        · left
          rfl
        · right
          rwa [List.head?_reverse]
    rw [htake, hfind, show P.length + L.length - L.length = P.length by omega,
      List.drop_left, hkey, hflow]
    -- whitespace skip
    have hTlen : 1 ≤ TEXT.length := by
      rw [htext2]
      simp
      omega
    have hc1 : TEXT.getD (P.length + L.length + 1) ' ' = ' ' :=
      getD_at_of_eq TEXT ((P ++ L) ++ ['=']) ' '
        ('{' :: v ++ '}' :: ',' :: '\n' :: (LofB tl ++ SegB tl)) _
        (by rw [htext2]; simp) (by simp; omega)
    have hc1lt : P.length + L.length + 1 < TEXT.length :=
      lt_length_of_eq TEXT ((P ++ L) ++ ['=']) ' '
        ('{' :: v ++ '}' :: ',' :: '\n' :: (LofB tl ++ SegB tl)) _
        (by rw [htext2]; simp) (by simp; omega)
    have hc2 : TEXT.getD (P.length + L.length + 1 + 1) ' ' = '{' :=
      getD_at_of_eq TEXT ((P ++ L) ++ ['=', ' ']) '{'
        (v ++ '}' :: ',' :: '\n' :: (LofB tl ++ SegB tl)) _
        (by rw [htext2]; simp) (by simp; omega)
    have hskip : skip_ws_loop TEXT (TEXT.length + 1) (P.length + L.length + 1) =
        P.length + L.length + 2 := by
      rw [show TEXT.length + 1 = (TEXT.length - 1) + 2 by omega]
      have := skip_ws_two TEXT (P.length + L.length + 1) (TEXT.length - 1) hc1 hc1lt hc2
      omega
    rw [hskip]
    -- value extraction
    have hext : extract_value TEXT (P.length + L.length + 2) =
        (v, P.length + L.length + 2 + v.length + 1) := by
      have h := extract_value_at_braced TEXT ((P ++ L) ++ ['=', ' ']) v
        (',' :: '\n' :: (LofB tl ++ SegB tl)) (by rw [htext2]; simp) hvpre hvbal
      rw [show ((P ++ L) ++ ['=', ' '] : List Char).length = P.length + L.length + 2 by
        simp; omega] at h
      exact h
    rw [hext]
    simp only
    rw [pyRStripComma_of_getLast v hvlast, hvnorm,
      odInsert_append acc f v (hdisj (f, v) (by simp))]
    -- walk over the comma and newline
    have hfuel3 : 3 ≤ fuel - L.length := by omega
    have hP2len : ((P ++ L) ++ '=' :: ' ' :: '{' :: v ++ ['}'] : List Char).length =
        P.length + L.length + 2 + v.length + 1 + 1 := by
      simp
      omega
    rw [show P.length + L.length + 2 + v.length + 1 + 1 =
        ((P ++ L) ++ '=' :: ' ' :: '{' :: v ++ ['}'] : List Char).length from hP2len.symm]
    rw [show fuel - L.length - 1 = ([',', '\n'] : List Char).length + (fuel - L.length - 3)
        by simp; omega]
    rw [parse_fields_walk TEXT [',', '\n'] ((P ++ L) ++ '=' :: ' ' :: '{' :: v ++ ['}'])
      (LofB tl ++ SegB tl) (acc ++ [(f, v)]) (fuel - L.length - 3)
      (by rw [htext2]; simp) (by decide)]
    -- recurse on the remaining fields
    rw [show ((P ++ L) ++ '=' :: ' ' :: '{' :: v ++ ['}'] : List Char).length +
        ([',', '\n'] : List Char).length =
        (((P ++ L) ++ '=' :: ' ' :: '{' :: v ++ ['}']) ++ [',', '\n'] : List Char).length
        by simp; omega]
    rw [show acc ++ (f, v) :: tl = (acc ++ [(f, v)]) ++ tl by simp]
    refine ih TEXT (((P ++ L) ++ '=' :: ' ' :: '{' :: v ++ ['}']) ++ [',', '\n'])
      (LofB tl) (acc ++ [(f, v)]) (fuel - L.length - 3)
      (by rw [htext2]; simp) ?_ ?_ ?_ ?_ ?_ ?_ ?_ ?_
    · right
      rw [show (((P ++ L) ++ '=' :: ' ' :: '{' :: v ++ ['}']) ++ [',', '\n'] : List Char) =
          ((((P ++ L) ++ '=' :: ' ' :: '{' :: v ++ ['}']) ++ [',']) ++ ['\n']) by simp]
      exact List.getLast?_concat _
    · cases tl with
      | nil => simp [LofB]
      | cons kv2 tl2 =>
        have h2 := (hgood kv2 (List.mem_cons_of_mem _ (List.mem_cons_self _ _))).1
        simp [LofB]
        exact h2
    · cases tl with
      | nil => simp [LofB]
      | cons kv2 tl2 =>
        have h2 := (hgood kv2 (List.mem_cons_of_mem _ (List.mem_cons_self _ _))).2.1
        simp [LofB]
        exact h2
    · cases tl with
      | nil => intro kv2 hmem; simp at hmem
      | cons kv2 tl2 =>
        intro kv3 hmem
        simp at hmem
        subst hmem
        have hg2 := hgood kv3 (List.mem_cons_of_mem _ (List.mem_cons_self _ _))
        rw [show LofB (kv3 :: tl2) = '\t' :: kv3.1 ++ [' '] from rfl,
          strip_tab_space kv3.1 hg2.2.2.1]
        exact hg2.2.2.2.1
    · intro kv2 hmem
      exact hgood kv2 (List.mem_cons_of_mem _ hmem)
    · exact (List.nodup_cons.mp hnodup).2
    · intro kv2 hmem
      rw [List.map_append, List.mem_append]
      rintro (hin | hin)
      · exact hdisj kv2 (List.mem_cons_of_mem _ hmem) hin
      · simp at hin
        have : kv2.1 ∈ tl.map Prod.fst := List.mem_map_of_mem Prod.fst hmem
        rw [hin] at this
        exact (List.nodup_cons.mp hnodup).1 this
    · rw [List.length_append] at hfuel ⊢
      omega


theorem takeWhile_not_brace (X Y : List Char) (hX : '{' ∉ X) :
    (X ++ '{' :: Y).takeWhile (fun c => !(c == '{')) = X
    ∧ (X ++ '{' :: Y).dropWhile (fun c => !(c == '{')) = '{' :: Y := by
  induction X with
  | nil => simp [List.takeWhile_cons, List.dropWhile_cons]
  | cons x X ih =>
    have hx : x ≠ '{' := fun h => hX (h ▸ List.mem_cons_self x X)
    have hx2 : (!(x == '{')) = true := by simpa using hx
    obtain ⟨h1, h2⟩ := ih (fun h => hX (List.mem_cons_of_mem x h))
    constructor
    · rw [List.cons_append, List.takeWhile_cons, hx2]
      simp only [if_true]
      rw [h1]
    · rw [List.cons_append, List.dropWhile_cons, hx2]
      simp only [if_true]
      rw [h2]

theorem parse_fields_TailB (fs : List (List Char × List Char))
    (hgood : ∀ kv ∈ fs, goodField kv) (hnodup : (fs.map Prod.fst).Nodup) :
    parse_fields (pyStrip (TailB fs ++ ['\n', '\n'])) = fs := by
  cases fs with
  | nil =>
    rw [strip_TailB_nil]
    decide
  | cons kv tl =>
    obtain ⟨f, v⟩ := kv
    have hfs := hgood (f, v) (List.mem_cons_self _ _)
    rw [strip_TailB_cons f v tl hfs.2.2.1]
    rw [parse_fields]
    have hres := parse_fields_SegB ((f, v) :: tl)
      ((if f = [] then ([] : List Char) else f ++ [' ']) ++ SegB ((f, v) :: tl))
      [] (if f = [] then ([] : List Char) else f ++ [' ']) []
      (((if f = [] then ([] : List Char) else f ++ [' ']) ++ SegB ((f, v) :: tl)).length + 1)
      (by simp) (Or.inl rfl) ?hn ?he ?hk hgood hnodup (by simp) (by omega)
    · simpa using hres
    case hn =>
      by_cases hf : f = []
      · simp [hf]
      · rw [if_neg hf]
        have := hfs.1
        simp only at this
        intro hmem
        rcases List.mem_append.mp hmem with h2 | h2
        · exact this h2
        · simp at h2
    case he =>
      by_cases hf : f = []
      · simp [hf]
      · rw [if_neg hf]
        have := hfs.2.1
        simp only at this
        intro hmem
        rcases List.mem_append.mp hmem with h2 | h2
        · exact this h2
        · simp at h2
    case hk =>
      intro kv2 hmem
      simp at hmem
      subst hmem
      by_cases hf : f = []
      · subst hf
        simp [pyStrip, pyLStrip, pyRStrip, pyLower]
      · rw [if_neg hf, strip_field_space f hfs.2.2.1]
        exact hfs.2.2.2.1

/-- C1 (amended): re-parsing the serializer's output reproduces the entry,
provided the entry is in the parser's normal form: the type is lowercase,
brace-free and newline-free; the key does not start with whitespace, holds no
newline and does not end in a comma; and every field has a stripped lowercase
key free of '\n' and '=', a brace-balanced value that never dips below depth
0, does not end in a comma, and is a fixed point of the field normalizer
(author/editor abbreviation and pages hyphen collapsing).  Without the
fixed-point condition the round trip fails (see the counterexample). -/
theorem C1_roundtrip_amended (key : List Char) (ty : List Char)
    (fs : List (List Char × List Char))
    (htyn : '\n' ∉ ty) (htyb : '{' ∉ ty) (htylow : pyLower (pyStrip ty) = ty)
    (hkn : '\n' ∉ key) (hkh : ∀ c ∈ key.take 1, isPySpace c = false)
    (hkl : key.getLast? ≠ some ',')
    (hgood : ∀ kv ∈ fs, goodField kv) (hnodup : (fs.map Prod.fst).Nodup) :
    process_bib_entry (entry2str key ⟨ty, fs⟩) [] = .ok [(key, ⟨ty, fs⟩)] := by
  rw [entry2str_shape key ⟨ty, fs⟩]
  simp only
  -- header line and tail text
  have hHRn : '\n' ∉ ('@' :: ty ++ '{' :: key ++ [',']) := by
    simp
    exact ⟨htyn, hkn⟩
  have hsplit : pySplitOn '\n'
      (('@' :: ty ++ '{' :: key ++ [',']) ++ '\n' :: (TailB fs ++ ['\n', '\n'])) =
      ('@' :: ty ++ '{' :: key ++ [',']) :: pySplitOn '\n' (TailB fs ++ ['\n', '\n']) :=
    pySplitOn_append_sep '\n' _ hHRn _
  simp only [process_bib_entry, hsplit, List.headD_cons]
  have hstrip : pyStrip ('@' :: ty ++ '{' :: key ++ [',']) =
      '@' :: ty ++ '{' :: key ++ [','] := by
    have h1 : ('@' :: ty ++ '{' :: key ++ [',']) = '@' :: (ty ++ '{' :: key) ++ [','] := by
      simp
    rw [h1, pyStrip_sandwich '@' (ty ++ '{' :: key) ',' (by decide) (by decide), ← h1]
  rw [hstrip]
  have hmem : '{' ∈ ('@' :: ty ++ '{' :: key ++ [',']) := by simp
  rw [if_pos hmem]
  have hTD : ('@' :: ty ++ '{' :: key ++ [',']) = ('@' :: ty) ++ '{' :: (key ++ [',']) := by
    simp
  obtain ⟨htw, hdw⟩ := takeWhile_not_brace ('@' :: ty) (key ++ [','])
    (by intro h; simp at h; exact htyb h)
  rw [hTD, htw, hdw]
  simp only [List.drop_succ_cons, List.drop_zero]
  rw [htylow, pyStrip_append_comma key hkh, pyRStripComma_append key hkl]
  -- the field text
  rw [joinSep_pySplitOn '\n' (TailB fs ++ ['\n', '\n'])]
  rw [parse_fields_TailB fs hgood hnodup]
  simp

/-- C1 (counterexample): the round trip is not the identity on entries as
produced by parsing.  Parsing the record `@a{k,\nauthor = {Tolkien, J. R. R.,
Jr.},\n}` yields the author value `J. R. R. , Jr. Tolkien`; serializing that
entry with `entry2str` and re-parsing yields `Jr. T. J. R. R.`, a different
value — the author normalizer applied at parse time is not idempotent. -/
theorem C1_roundtrip_counterexample :
    process_bib_entry (chars "@a\x7bk,\nauthor = \x7bTolkien, J. R. R., Jr.\x7d,\n\x7d") [] =
      .ok [(chars "k", ⟨chars "a", [(chars "author", chars "J. R. R. , Jr. Tolkien")]⟩)]
    ∧ process_bib_entry
        (entry2str (chars "k")
          ⟨chars "a", [(chars "author", chars "J. R. R. , Jr. Tolkien")]⟩) [] =
      .ok [(chars "k", ⟨chars "a", [(chars "author", chars "Jr. T. J. R. R.")]⟩)]
    ∧ chars "J. R. R. , Jr. Tolkien" ≠ chars "Jr. T. J. R. R." :=
  ⟨by decide, by decide, by decide⟩

theorem C1_roundtrip_amended_witness :
    process_bib_entry
        (entry2str (chars "k") ⟨chars "article", [(chars "title", chars "T")]⟩) [] =
      .ok [(chars "k", ⟨chars "article", [(chars "title", chars "T")]⟩)] :=
  C1_roundtrip_amended (chars "k") (chars "article") [(chars "title", chars "T")]
    (by decide) (by decide) (by decide) (by decide) (by decide) (by decide)
    (by decide) (by decide)
